import Mathlib

/-!
# Waffle: the expression model, structural relations and token table

A shallow embedding of `ast.hpp`, `elab.hpp`, `token.cpp` and `lang/lexing.ipp`.

* Node kinds: `Node_kind`, the kind constants of `ast.hpp`, and the table
  `Struct.kind` of the kind constant each node struct passes to its base class.
* Node objects live in a `Heap`; a `Type*`/`Expr*`/`Name*` is a `Ptr`
  (`none` is `nullptr`, `some a` the address `a`).
* Type expressions as trees (`Ty`) for the structural relation `is_same`.
* The token table built by `init_tokens`.
* The lexing rules of `lang/lexing.ipp` (namespace `lex`) over a `Lexer` state:
  a character buffer with the positions `first` and `last`, the location and
  the saved tokens.
-/

namespace Waffle

/-! ## Node kinds -/

/-- The three categories of expression nodes. -/
inductive Category
  | name
  | term
  | type
  deriving DecidableEq, Repr

/-- Modelled from the spec: `Node_kind` and the functions `make_name_node`,
`make_term_node`, `make_type_node` are declared in `lang/nodes.hpp`, which is not
among the sources. The spec describes the kind tag as a discriminator encoding
both the category of a node and its specific variant, the categories being
disjoint ranges; a tag is therefore a category together with the ordinal passed
to the `make_*_node` function. -/
structure Node_kind where
  cat : Category
  ord : Nat
  deriving DecidableEq, Repr

/-- Modelled from the spec: builds a kind tag in the name category. -/
def make_name_node (n : Nat) : Node_kind := ⟨Category.name, n⟩

/-- Modelled from the spec: builds a kind tag in the term category. -/
def make_term_node (n : Nat) : Node_kind := ⟨Category.term, n⟩

/-- Modelled from the spec: builds a kind tag in the type category. -/
def make_type_node (n : Nat) : Node_kind := ⟨Category.type, n⟩

-- Name terms
def id_expr : Node_kind := make_name_node 1
-- Unit terms
def unit_term : Node_kind := make_term_node 1
-- Boolean terms
def true_term : Node_kind := make_term_node 10
def false_term : Node_kind := make_term_node 11
def if_term : Node_kind := make_term_node 12
-- Boolean operators
def and_term : Node_kind := make_term_node 13
def or_term : Node_kind := make_term_node 14
def not_term : Node_kind := make_term_node 15
-- Comparison operators
def equals_term : Node_kind := make_term_node 16
def less_term : Node_kind := make_term_node 17
-- Numeric terms
def int_term : Node_kind := make_term_node 20
def succ_term : Node_kind := make_term_node 21
def pred_term : Node_kind := make_term_node 22
def iszero_term : Node_kind := make_term_node 23
-- String terms
def str_term : Node_kind := make_term_node 25
-- Lambda terms
def var_term : Node_kind := make_term_node 30
def abs_term : Node_kind := make_term_node 31
def fn_term : Node_kind := make_term_node 32
def app_term : Node_kind := make_term_node 33
def call_term : Node_kind := make_term_node 34
-- Tuples, records, and variants
def tuple_term : Node_kind := make_term_node 40
def list_term : Node_kind := make_term_node 41
def record_term : Node_kind := make_term_node 42
def variant_term : Node_kind := make_term_node 43
def comma_term : Node_kind := make_term_node 44
def proj_term : Node_kind := make_term_node 45
def mem_term : Node_kind := make_term_node 46
-- Declarations
def def_term : Node_kind := make_term_node 50
def init_term : Node_kind := make_term_node 51
-- Tables, table attributes, relational algebra
def table_term : Node_kind := make_term_node 60
def select_term : Node_kind := make_term_node 61
def join_on_term : Node_kind := make_term_node 62
def union_term : Node_kind := make_term_node 63
def intersect_term : Node_kind := make_term_node 64
def except_term : Node_kind := make_term_node 65
def col_term : Node_kind := make_term_node 66
-- Module terms
def mod_id_term : Node_kind := make_term_node 67
-- Miscellaneous terms
def ref_term : Node_kind := make_term_node 100
def print_term : Node_kind := make_term_node 101
def prog_term : Node_kind := make_term_node 500
-- Types
def kind_type : Node_kind := make_type_node 1
def unit_type : Node_kind := make_type_node 2
def bool_type : Node_kind := make_type_node 3
def nat_type : Node_kind := make_type_node 5
def str_type : Node_kind := make_type_node 6
def arrow_type : Node_kind := make_type_node 20
def fn_type : Node_kind := make_type_node 21
def tuple_type : Node_kind := make_type_node 22
def list_type : Node_kind := make_type_node 23
def record_type : Node_kind := make_type_node 24
def variant_type : Node_kind := make_type_node 25
def wild_type : Node_kind := make_type_node 30

/-- Every kind constant declared in `ast.hpp` (lines 18-83), in declaration order. -/
def declared_kinds : List Node_kind :=
  [id_expr, unit_term, true_term, false_term, if_term, and_term, or_term, not_term,
   equals_term, less_term, int_term, succ_term, pred_term, iszero_term, str_term,
   var_term, abs_term, fn_term, app_term, call_term, tuple_term, list_term,
   record_term, variant_term, comma_term, proj_term, mem_term, def_term, init_term,
   table_term, select_term, join_on_term, union_term, intersect_term, except_term,
   col_term, mod_id_term, ref_term, print_term, prog_term, kind_type, unit_type,
   bool_type, nat_type, str_type, arrow_type, fn_type, tuple_type, list_type,
   record_type, variant_type, wild_type]

/-- The ordinals of the declared kind constants that lie in category `c`. -/
def ordinals_in (c : Category) : List Nat :=
  (declared_kinds.filter (fun k => decide (k.cat = c))).map Node_kind.ord

/-- The node structs defined in `ast.hpp`, in definition order. -/
inductive Struct
  | Id | Mod_id
  | Unit | True | False | If | Int | And | Or | Not | Equals | Less
  | Succ | Pred | Iszero | Str | Var | Abs | Fn | App | Call | Def | Init
  | Tuple | List | Record | Comma | Proj | Mem | Col | Ref | Print | Prog
  | Select_from_where | Join | Union | Intersect | Except
  | Kind_type | Unit_type | Bool_type | Nat_type | Str_type | Arrow_type
  | Fn_type | Tuple_type | List_type | Record_type | Wild_type
  deriving DecidableEq, Repr

/-- All node structs of `ast.hpp`. -/
def all_structs : List Struct :=
  [.Id, .Mod_id, .Unit, .True, .False, .If, .Int, .And, .Or, .Not, .Equals, .Less,
   .Succ, .Pred, .Iszero, .Str, .Var, .Abs, .Fn, .App, .Call, .Def, .Init,
   .Tuple, .List, .Record, .Comma, .Proj, .Mem, .Col, .Ref, .Print, .Prog,
   .Select_from_where, .Join, .Union, .Intersect, .Except,
   .Kind_type, .Unit_type, .Bool_type, .Nat_type, .Str_type, .Arrow_type,
   .Fn_type, .Tuple_type, .List_type, .Record_type, .Wild_type]

/-- The base class each struct derives from (`struct S : Name`, `: Term`, `: Type`). -/
def Struct.base : Struct → Category
  | .Id | .Mod_id => Category.name
  | .Unit | .True | .False | .If | .Int | .And | .Or | .Not | .Equals | .Less
  | .Succ | .Pred | .Iszero | .Str | .Var | .Abs | .Fn | .App | .Call | .Def | .Init
  | .Tuple | .List | .Record | .Comma | .Proj | .Mem | .Col | .Ref | .Print | .Prog
  | .Select_from_where | .Join | .Union | .Intersect | .Except => Category.term
  | .Kind_type | .Unit_type | .Bool_type | .Nat_type | .Str_type | .Arrow_type
  | .Fn_type | .Tuple_type | .List_type | .Record_type | .Wild_type => Category.type

/-- The kind constant the constructors of each struct pass to the base class
constructor (every constructor of one struct passes the same constant). -/
def Struct.kind : Struct → Node_kind
  | .Id => id_expr
  | .Mod_id => mod_id_term
  | .Unit => unit_term
  | .True => true_term
  | .False => false_term
  | .If => if_term
  | .Int => int_term
  | .And => and_term
  | .Or => or_term
  | .Not => not_term
  | .Equals => equals_term
  | .Less => less_term
  | .Succ => succ_term
  | .Pred => pred_term
  | .Iszero => iszero_term
  | .Str => str_term
  | .Var => var_term
  | .Abs => abs_term
  | .Fn => fn_term
  | .App => app_term
  | .Call => call_term
  | .Def => def_term
  | .Init => init_term
  | .Tuple => tuple_term
  | .List => list_term
  | .Record => record_term
  | .Comma => comma_term
  | .Proj => proj_term
  | .Mem => mem_term
  | .Col => col_term
  | .Ref => ref_term
  | .Print => print_term
  | .Prog => prog_term
  | .Select_from_where => select_term
  | .Join => join_on_term
  | .Union => union_term
  | .Intersect => intersect_term
  | .Except => except_term
  | .Kind_type => kind_type
  | .Unit_type => unit_type
  | .Bool_type => bool_type
  | .Nat_type => nat_type
  | .Str_type => str_type
  | .Arrow_type => arrow_type
  | .Fn_type => fn_type
  | .Tuple_type => tuple_type
  | .List_type => list_type
  | .Record_type => record_type
  | .Wild_type => wild_type

/-! ## Node objects and the heap -/

/-- A pointer to a node: `none` is `nullptr`, `some a` is the address `a`. -/
abbrev Ptr := Option Nat

/-- A source location (`lang/location.hpp`): the lexer reads and writes `line` and `col`. -/
structure Location where
  line : Nat
  col : Nat
  deriving DecidableEq, Repr

/-- The `Node` base: the kind tag and the location, absent when the node is
built by a constructor that takes no location. -/
structure Node where
  kind : Node_kind
  loc : Option Location
  deriving DecidableEq, Repr

/-- Every phrase of the language is an expression: `struct Expr : Node` with the
mutable slot `tr` caching the type of the expression. -/
structure Expr extends Node where
  tr : Ptr
  deriving DecidableEq, Repr

/-- Constructor `Expr(Node_kind k, Type* t)`. -/
def Expr.ctor (k : Node_kind) (t : Ptr) : Expr := { kind := k, loc := none, tr := t }

/-- Constructor `Expr(Node_kind k, const Location& l, Type* t)`. -/
def Expr.ctor_loc (k : Node_kind) (l : Location) (t : Ptr) : Expr :=
  { kind := k, loc := some l, tr := t }

/-- Node `struct Id : Name` with its text `t1`. -/
structure Id extends Expr where
  t1 : String
  deriving DecidableEq, Repr

/-- Constructor `Id(String n) : Name(id_expr, nullptr), t1(n)`. -/
def Id.ctor (n : String) : Id := { toExpr := Expr.ctor id_expr none, t1 := n }

/-- Constructor `Id(const Location& l, String n) : Name(id_expr, l, nullptr), t1(n)`. -/
def Id.ctor_loc (l : Location) (n : String) : Id :=
  { toExpr := Expr.ctor_loc id_expr l none, t1 := n }

/-- Node `struct Mod_id : Name` with its text `t1`. -/
structure Mod_id extends Expr where
  t1 : String
  deriving DecidableEq, Repr

/-- Constructor `Mod_id(String n) : Name(mod_id_term, nullptr), t1(n)`. -/
def Mod_id.ctor (n : String) : Mod_id := { toExpr := Expr.ctor mod_id_term none, t1 := n }

/-- Node `struct Var : Term`, a variable declaration `x : T`. -/
structure Var extends Expr where
  t1 : Ptr
  t2 : Ptr
  deriving DecidableEq, Repr

/-- Constructor `Var(Name* n, Type* t) : Term(var_term, t), t1(n), t2(t)`. -/
def Var.ctor (n : Ptr) (t : Ptr) : Var := { toExpr := Expr.ctor var_term t, t1 := n, t2 := t }

/-- Constructor `Var(const Location& l, Name* n, Type* t) : Term(var_term, l, t), t1(n), t2(t)`. -/
def Var.ctor_loc (l : Location) (n : Ptr) (t : Ptr) : Var :=
  { toExpr := Expr.ctor_loc var_term l t, t1 := n, t2 := t }

/-- Accessor `Name* name() const { return t1; }`. -/
def Var.name (v : Var) : Ptr := v.t1

/-- Accessor `Type* type() const { return t2; }`. -/
def Var.type (v : Var) : Ptr := v.t2

/-- Node `struct Ref : Term`, a reference to a declared entity. -/
structure Ref extends Expr where
  t1 : Ptr
  deriving DecidableEq, Repr

/-- Accessor `Expr* decl() const { return t1; }`. -/
def Ref.decl (r : Ref) : Ptr := r.t1

/-- An object of the heap: one of the node structs modelled with their own
fields, or any other node seen through its `Expr` base subobject. -/
inductive Object
  | id (o : Id)
  | mod_id (o : Mod_id)
  | var (o : Var)
  | ref (o : Ref)
  | expr (o : Expr)
  deriving DecidableEq, Repr

/-- The `Expr` base subobject of a heap object. -/
def Object.toExpr : Object → Expr
  | .id o => o.toExpr
  | .mod_id o => o.toExpr
  | .var o => o.toExpr
  | .ref o => o.toExpr
  | .expr o => o

/-- Assignment `o.tr = t` to the cached-type slot of an object. -/
def Object.set_tr (t : Ptr) : Object → Object
  | .id o => .id { o with tr := t }
  | .mod_id o => .mod_id { o with tr := t }
  | .var o => .var { o with tr := t }
  | .ref o => .ref { o with tr := t }
  | .expr o => .expr { o with tr := t }

/-- The heap: the object at address `a` is the `a`-th entry. -/
abbrev Heap := List Object

/-- Reading through an `Expr*`: the `Expr` subobject the pointer designates, or
`none` when the pointer is null or designates no object. -/
def Heap.deref (h : Heap) (p : Ptr) : Option Expr :=
  match p with
  | none => none
  | some a => h[a]?.map Object.toExpr

/-- Allocation `new T(...)`: the object is placed at a fresh address, which is returned. -/
def Heap.alloc (h : Heap) (o : Object) : Heap × Nat := (h ++ [o], h.length)

/-- Assignment `d->tr = t` through the pointer `d`. -/
def Heap.assign_tr (h : Heap) (d : Nat) (t : Ptr) : Heap := h.modify (Object.set_tr t) d

/-- The cached type read through a pointer: `p->tr`. -/
def Heap.tr_of (h : Heap) (p : Ptr) : Option Ptr := (h.deref p).map Expr.tr

/-- Constructor `Ref(Expr* e) : Term(ref_term, e->tr), t1(e)`. It reads `e->tr`,
so it is defined only when `e` designates an object. -/
def Ref.ctor (h : Heap) (e : Ptr) : Option Ref :=
  match h.deref e with
  | none => none
  | some d => some { toExpr := Expr.ctor ref_term d.tr, t1 := e }

/-- Constructor `Ref(const Location& l, Expr* e) : Term(ref_term, l, e->tr), t1(e)`. -/
def Ref.ctor_loc (h : Heap) (l : Location) (e : Ptr) : Option Ref :=
  match h.deref e with
  | none => none
  | some d => some { toExpr := Expr.ctor_loc ref_term l d.tr, t1 := e }

/-! ## The token table -/

/-- The token kinds named in `token.cpp` and `lang/lexing.ipp`. Their numeric
values are declared in `token.hpp`, which is not among the sources; a kind is
identified by the name of its constant. -/
inductive Token_kind
  | def_tok | else_tok | false_tok | if_tok | iszero_tok | print_tok | pred_tok
  | succ_tok | then_tok | true_tok | typeof_tok | unit_tok | import_tok
  | bool_type_tok | nat_type_tok | unit_type_tok
  | identifier_tok | decimal_literal_tok | file_tok
  | directory_tok | string_literal_tok
  deriving DecidableEq, Repr

/-- The token table: the registered (kind, spelling) bindings, oldest first. -/
abbrev Token_table := List (Token_kind × String)

/-- Modelled from the spec: `init_token` is declared outside the sources; the
token table is a mapping from literal spellings to lexical symbol kinds, and
`init_token(k, s)` registers the spelling `s` for the kind `k`. -/
def init_token (k : Token_kind) (s : String) (tab : Token_table) : Token_table :=
  tab ++ [(k, s)]

/-- The function `init_tokens` of `token.cpp`, threading the table through the
nineteen calls in source order. -/
def init_tokens (tab : Token_table) : Token_table :=
  -- Keywords
  let tab := init_token .def_tok "def" tab
  let tab := init_token .else_tok "else" tab
  let tab := init_token .false_tok "false" tab
  let tab := init_token .if_tok "if" tab
  let tab := init_token .iszero_tok "iszero" tab
  let tab := init_token .print_tok "print" tab
  let tab := init_token .pred_tok "pred" tab
  let tab := init_token .succ_tok "succ" tab
  let tab := init_token .then_tok "then" tab
  let tab := init_token .true_tok "true" tab
  let tab := init_token .typeof_tok "typeof" tab
  let tab := init_token .unit_tok "unit" tab
  let tab := init_token .import_tok "import" tab
  -- Type names
  let tab := init_token .bool_type_tok "Bool" tab
  let tab := init_token .nat_type_tok "Nat" tab
  let tab := init_token .unit_type_tok "Unit" tab
  -- Identifiers, literals, files
  let tab := init_token .identifier_tok "identifier" tab
  let tab := init_token .decimal_literal_tok "decimal" tab
  init_token .file_tok "file" tab

/-- The keyword spellings the spec lists for the token table. -/
def spec_keywords : List String :=
  ["def", "else", "false", "if", "iszero", "print", "pred", "succ", "then", "true",
   "typeof", "unit", "import"]

/-- The type names the spec lists for the token table. -/
def spec_type_names : List String := ["Bool", "Nat", "Unit"]

/-- The token table the spec lists, each spelling paired with the token kind of
the same name; the identifier, decimal-literal and file kinds come last. -/
def spec_token_table : Token_table :=
  [(.def_tok, "def"), (.else_tok, "else"), (.false_tok, "false"), (.if_tok, "if"),
   (.iszero_tok, "iszero"), (.print_tok, "print"), (.pred_tok, "pred"),
   (.succ_tok, "succ"), (.then_tok, "then"), (.true_tok, "true"),
   (.typeof_tok, "typeof"), (.unit_tok, "unit"), (.import_tok, "import"),
   (.bool_type_tok, "Bool"), (.nat_type_tok, "Nat"), (.unit_type_tok, "Unit"),
   (.identifier_tok, "identifier"), (.decimal_literal_tok, "decimal"),
   (.file_tok, "file")]

/-! ## Sample heap -/

/-- A heap holding `Nat_type(nullptr)` at 0, `Bool_type(nullptr)` at 1, `Id("x")`
at 2 and `Var(&x, &nat)` at 3. -/
def sample_heap : Heap :=
  [.expr (Expr.ctor nat_type none), .expr (Expr.ctor bool_type none),
   .id (Id.ctor "x"), .var (Var.ctor (some 2) (some 0))]

/-- The node `Ref(e)` for the pointer `e` to the `Var` at address 3 of the sample heap. -/
def sample_ref : Ref := { toExpr := Expr.ctor ref_term (some 0), t1 := some 3 }

/-- The node `Ref(l, e)` for the location `l` at line 2, column 7, and the pointer
`e` to the `Var` at address 3 of the sample heap. -/
def sample_ref_loc : Ref :=
  { toExpr := Expr.ctor_loc ref_term { line := 2, col := 7 } (some 0), t1 := some 3 }

/-! ## Type expressions and the structural relation -/

/-- Type expressions as trees: one constructor per type struct of `ast.hpp`
(`Kind_type` ... `Wild_type`), with the fields `t1`, `t2` of the struct, plus the
variant type, for which `ast.hpp` declares the kind `variant_type` and which the
spec lists with named member declarations like a record type. A member
declaration (a `Var` term `n : T`) is the text of its name with its declared
type. The location and the cached kind of a type node are left out, and so is
the `schema` field of `Wild_type`, which no constructor initialises. -/
inductive Ty
  | Kind_type
  | Unit_type
  | Bool_type
  | Nat_type
  | Str_type
  | Arrow_type (t1 t2 : Ty)
  | Fn_type (t1 : List Ty) (t2 : Ty)
  | Tuple_type (t1 : List Ty)
  | List_type (t1 : Ty)
  | Record_type (t1 : List (String × Ty))
  | Variant_type (t1 : List (String × Ty))
  | Wild_type (t1 : String) (t2 : Ty)
  deriving Repr

mutual
/-- Modelled from the spec: `is_same` is declared in `ast.hpp` and defined outside
the sources. Two type nodes are the same iff their kinds match and all structural
children are pairwise the same; record and variant types are the same iff their
label sets are identical and same-labelled members have the same types, the
order of the labels being irrelevant; a wildcard type is the same as a concrete
type iff the concrete type is the same as the underlying type of the wildcard,
the binder name being irrelevant. -/
def is_same : Ty → Ty → Bool
  | .Wild_type _ t, .Wild_type _ u => is_same t u
  | .Wild_type _ t, c => is_same t c
  | c, .Wild_type _ u => is_same c u
  | .Kind_type, .Kind_type => true
  | .Unit_type, .Unit_type => true
  | .Bool_type, .Bool_type => true
  | .Nat_type, .Nat_type => true
  | .Str_type, .Str_type => true
  | .Arrow_type a b, .Arrow_type c d => is_same a c && is_same b d
  | .Fn_type ps r, .Fn_type qs s => is_same_seq ps qs && is_same r s
  | .Tuple_type ts, .Tuple_type us => is_same_seq ts us
  | .List_type t, .List_type u => is_same t u
  | .Record_type ms, .Record_type ns =>
      ms.all (fun m => ns.any (fun n => m.1 == n.1)) &&
      ns.all (fun n => ms.any (fun m => n.1 == m.1)) &&
      is_same_members ms ns
  | .Variant_type ms, .Variant_type ns =>
      ms.all (fun m => ns.any (fun n => m.1 == n.1)) &&
      ns.all (fun n => ms.any (fun m => n.1 == m.1)) &&
      is_same_members ms ns
  | _, _ => false
termination_by a b => sizeOf a + sizeOf b
/-- Modelled from the spec: two sequences of types are the same iff they have the
same length and are pairwise the same. -/
def is_same_seq : List Ty → List Ty → Bool
  | [], [] => true
  | t :: ts, u :: us => is_same t u && is_same_seq ts us
  | _, _ => false
termination_by ts us => sizeOf ts + sizeOf us
/-- Modelled from the spec: every member of `ns` labelled `l` has the same type as `t`. -/
def is_same_member (l : String) (t : Ty) : List (String × Ty) → Bool
  | [] => true
  | (l1, u) :: ns => (l != l1 || is_same t u) && is_same_member l t ns
termination_by ns => sizeOf t + sizeOf ns
/-- Modelled from the spec: same-labelled members of `ms` and `ns` have the same types. -/
def is_same_members : List (String × Ty) → List (String × Ty) → Bool
  | [], _ => true
  | (l, t) :: ms, ns => is_same_member l t ns && is_same_members ms ns
termination_by ms ns => sizeOf ms + sizeOf ns
end

mutual
/-- Modelled from the spec: a type expression is well-formed iff its structural
children are well-formed and, for record and variant types, the member list has
pairwise-distinct labels. -/
def Ty.well_formed : Ty → Bool
  | .Arrow_type a b => a.well_formed && b.well_formed
  | .Fn_type ps r => well_formed_seq ps && r.well_formed
  | .Tuple_type ts => well_formed_seq ts
  | .List_type t => t.well_formed
  | .Record_type ms => decide ((ms.map Prod.fst).Nodup) && well_formed_members ms
  | .Variant_type ms => decide ((ms.map Prod.fst).Nodup) && well_formed_members ms
  | .Wild_type _ t => t.well_formed
  | _ => true
/-- Every type of the sequence is well-formed. -/
def well_formed_seq : List Ty → Bool
  | [] => true
  | t :: ts => t.well_formed && well_formed_seq ts
/-- The declared type of every member is well-formed. -/
def well_formed_members : List (String × Ty) → Bool
  | [] => true
  | (_, t) :: ms => t.well_formed && well_formed_members ms
end

/-- The record type `{x : Nat, y : *a:Bool}`. -/
def sample_record_a : Ty :=
  .Record_type [("x", .Nat_type), ("y", .Wild_type "a" .Bool_type)]

/-- The record type `{y : Bool, x : Nat}`. -/
def sample_record_b : Ty := .Record_type [("y", .Bool_type), ("x", .Nat_type)]

/-- The wildcard type `*r:{x : *n:Nat, y : Bool}`. -/
def sample_record_c : Ty :=
  .Wild_type "r" (.Record_type [("x", .Wild_type "n" .Nat_type), ("y", .Bool_type)])

/-! ## Elaboration of conditionals -/

mutual
/-- Typed terms as trees, in the uniform shape of the term structs of `ast.hpp`:
the kind tag, the cached type `tr` (assigned by elaboration) and the operands
`t1`, `t2`, `t3` in order. -/
inductive Term
  | mk (kind : Node_kind) (tr : Ty) (ops : List Operand)
/-- An operand of a term node: a subterm, a sequence of terms, a type, the text
of a name, an integer value or a string value. -/
inductive Operand
  | term (t : Term)
  | terms (ts : List Term)
  | type (t : Ty)
  | name (n : String)
  | int (n : Int)
  | text (s : String)
end

/-- The cached type of a typed term. -/
def Term.tr : Term → Ty
  | .mk _ t _ => t

/-- The kind tag of a typed term. -/
def Term.kind : Term → Node_kind
  | .mk k _ _ => k

/-- Constructor `Unit(Type* t) : Term(unit_term, t)`. -/
def Unit_node (t : Ty) : Term := .mk unit_term t []

/-- Constructor `True(Type* t) : Term(true_term, t)`. -/
def True_node (t : Ty) : Term := .mk true_term t []

/-- Constructor `False(Type* t) : Term(false_term, t)`. -/
def False_node (t : Ty) : Term := .mk false_term t []

/-- Constructor `Int(Type* t, const Integer& n) : Term(int_term, t), t1(n)`. -/
def Int_node (t : Ty) (n : Int) : Term := .mk int_term t [.int n]

/-- Constructor `Str(Type* t, String s) : Term(str_term, t), t1(s)`. -/
def Str_node (t : Ty) (s : String) : Term := .mk str_term t [.text s]

/-- Constructor `If(Type* t0, Term* t1, Term* t2, Term* t3)
: Term(if_term, t0), t1(t1), t2(t2), t3(t3)`. -/
def If_node (t0 : Ty) (t1 t2 t3 : Term) : Term :=
  .mk if_term t0 [.term t1, .term t2, .term t3]

/-- Severity of a diagnostic. -/
inductive Severity
  | error
  | warning
  deriving DecidableEq, Repr

/-- Modelled from the spec: `Diagnostics` is declared in `lang/error.hpp`, not
among the sources. A diagnostic record carries a source location, a severity
and a message. -/
structure Diagnostic where
  loc : Option Location
  severity : Severity
  message : String
  deriving DecidableEq, Repr

/-- Modelled from the spec: the diagnostics sink, an append-only sequence of records. -/
abbrev Diagnostics := List Diagnostic

/-- The `Elaborator` of `elab.hpp`: its state is the member `Diagnostics diags`. -/
structure Elaborator where
  diags : Diagnostics
  deriving DecidableEq, Repr

/-- Modelled from the spec: records an error diagnostic, appending it to the sink. -/
def Elaborator.report (st : Elaborator) (msg : String) : Elaborator :=
  { diags := st.diags ++ [{ loc := none, severity := .error, message := msg }] }

/-- Modelled from the spec: `Elaborator::operator()` is declared in `elab.hpp` and
defined outside the sources. The rule for `If(c, t, e)`, applied to the already
elaborated subterms `c1`, `t1`, `e1`: `c` must elaborate to `Bool` (error
"condition must be boolean" otherwise); `t` and `e` must be type-equivalent
under `is_same` (error "branches must agree" otherwise); on an error the cached
type of the `If` is the error placeholder type `err`, otherwise it is the type
of `t`. -/
def Elaborator.if_rule (err : Ty) (c1 t1 e1 : Term) (st : Elaborator) : Term × Elaborator :=
  let cond_ok := is_same c1.tr .Bool_type
  let branches_ok := is_same t1.tr e1.tr
  let st := if cond_ok then st else st.report "condition must be boolean"
  let st := if branches_ok then st else st.report "branches must agree"
  (If_node (if cond_ok && branches_ok then t1.tr else err) c1 t1 e1, st)

/-- Modelled from the spec: elaboration of `If(c, t, e)`, bottom-up: the subtrees
are elaborated in order by `sub`, the elaborator for subtrees, threading the
diagnostics, and then the rule for conditionals is applied. -/
def Elaborator.elaborate_if {T : Type} (sub : T → Elaborator → Term × Elaborator) (err : Ty)
    (c t e : T) (st : Elaborator) : Term × Elaborator :=
  let r1 := sub c st
  let r2 := sub t r1.2
  let r3 := sub e r2.2
  Elaborator.if_rule err r1.1 r2.1 r3.1 r3.2

/-- A stand-in for the error placeholder type in examples: the wildcard `*error:*`. -/
def sample_error_type : Ty := .Wild_type "error" .Kind_type

/-- Parse trees of literals and conditionals. The parse tree is produced by the
parser, which is not among the sources; its shape follows the kinds of the typed
expressions. -/
inductive Tree
  | Unit
  | True
  | False
  | Int (n : Int)
  | Str (s : String)
  | If (c t e : Tree)
  deriving Repr

/-- Modelled from the spec: the elaborator on literals and conditionals. Literals
elaborate to themselves with their fixed atomic type, without recursion;
conditionals by the rule for `If`. -/
def Elaborator.elaborate (err : Ty) : Tree → Elaborator → Term × Elaborator
  | .Unit, st => (Unit_node .Unit_type, st)
  | .True, st => (True_node .Bool_type, st)
  | .False, st => (False_node .Bool_type, st)
  | .Int n, st => (Int_node .Nat_type n, st)
  | .Str s, st => (Str_node .Str_type s, st)
  | .If c t e, st =>
    let r1 := Elaborator.elaborate err c st
    let r2 := Elaborator.elaborate err t r1.2
    let r3 := Elaborator.elaborate err e r2.2
    Elaborator.if_rule err r1.1 r2.1 r3.1 r3.2

/-! ## The lexer -/

namespace lex

/-- A token: its location, its kind and its text (`toks.emplace_back(loc, k, str)`). -/
structure Token where
  loc : Location
  kind : Token_kind
  str : String
  deriving DecidableEq, Repr

/-- The lexer state used by the rules of `lang/lexing.ipp`: the iterators
`first` and `last` are positions in the character buffer `buf` they point into
(the buffer may extend beyond `last`, as the terminator of a string does), `loc`
is the current location and `toks` the tokens saved so far. -/
structure Lexer where
  buf : List Char
  first : Nat
  last : Nat
  loc : Location
  toks : List Token
  deriving DecidableEq, Repr

/-- The outcome of running a loop that need not terminate: a result, an
undefined read outside the buffer, or exhausted fuel. -/
inductive Run (α : Type)
  | done (a : α)
  | undefined
  | out_of_fuel
  deriving DecidableEq, Repr

/-- Function `advance(lex, n)`: `lex.first += n; lex.loc.col += n`. -/
def advance (lex : Lexer) (n : Nat) : Lexer :=
  { lex with first := lex.first + n, loc := { lex.loc with col := lex.loc.col + n } }

/-- Function `save(lex, k, str)`: `lex.toks.emplace_back(lex.loc, k, str)`. -/
def save (lex : Lexer) (k : Token_kind) (str : String) : Lexer :=
  { lex with toks := lex.toks ++ [{ loc := lex.loc, kind := k, str := str }] }

/-- Construction `String str(first, iter)`: the characters of the buffer from
`first` up to `iter`; undefined when `iter` lies beyond the buffer. -/
def extract (buf : List Char) (first iter : Nat) : Option String :=
  if iter ≤ buf.length then some (String.mk ((buf.take iter).drop first)) else none

/-- Function `is_id_head`: `std::isalpha(c) || c == '_'`. The tests `std::isalpha`
and `std::isdigit` are those of the C locale: the letters `a-z`, `A-Z` and the
digits `0-9`. -/
def is_id_head (c : Char) : Bool := c.isAlpha || c == '_'

/-- Function `is_file_rest`: `std::isalpha(c) || std::isdigit(c) || c == '.'`. -/
def is_file_rest (c : Char) : Bool := c.isAlpha || c.isDigit || c == '.'

/-- Function `is_id_rest`: `std::isalpha(c) || std::isdigit(c) || c == '_'`. -/
def is_id_rest (c : Char) : Bool := c.isAlpha || c.isDigit || c == '_'

/-- Function `is_digit`: `std::isdigit(c)`. -/
def is_digit (c : Char) : Bool := c.isDigit

/-- Function `is_newline`: `c == '\n'`. -/
def is_newline (c : Char) : Bool := c == '\n'

/-- The loop `while (iter != last and p(*iter)) ++iter;` of `id`, `integer`,
`comment` and `module`: the position where it stops, undefined when it reads
outside the buffer. -/
def scan_while (p : Char → Bool) (buf : List Char) (last : Nat) (iter : Nat) : Option Nat :=
  if iter = last then some iter
  else if h : iter < buf.length then
    if p buf[iter] then scan_while p buf last (iter + 1) else some iter
  else none
termination_by buf.length - iter

/-- The loop of `is_module`: `while (iter != last && is_file_rest(*iter))
{ if (*iter == '.') return true; ++iter; } return false;`. -/
def is_module_loop (buf : List Char) (last : Nat) (iter : Nat) : Option Bool :=
  if iter = last then some false
  else if h : iter < buf.length then
    if is_file_rest buf[iter] then
      if buf[iter] = '.' then some true else is_module_loop buf last (iter + 1)
    else some false
  else none
termination_by buf.length - iter

/-- Function `is_module`: reads `*lex.first`, and when it is an identifier head
scans from `lex.first + 1` for a dot. -/
def is_module (lex : Lexer) : Option Bool :=
  match lex.buf[lex.first]? with
  | none => none
  | some c => if is_id_head c then is_module_loop lex.buf lex.last (lex.first + 1) else some false

/-- Modelled from the spec: `keyword` is declared outside the sources. Keyword
lookup over the token table: the kind registered for the spelling, or none (the
zero token kind) when the spelling is not registered. -/
def keyword (tab : Token_table) (str : String) : Option Token_kind :=
  (tab.find? (fun b => b.2 == str)).map Prod.fst

/-- Function `id`: consumes an identifier or keyword. -/
def id (tab : Token_table) (lex : Lexer) : Option Lexer :=
  match scan_while is_id_rest lex.buf lex.last (lex.first + 1) with
  | none => none
  | some iter =>
    match extract lex.buf lex.first iter with
    | none => none
    | some str =>
      match keyword tab str with
      | some k => some (advance (save lex k str) (iter - lex.first))
      | none => some (advance (save lex .identifier_tok str) (iter - lex.first))

/-- The loop of `is_import_line`: `while (iter != last and !is_newline(*iter))
{ if (*iter == ';') return false; ++iter; } return true;`. -/
def is_import_line_loop (buf : List Char) (last : Nat) (iter : Nat) : Option Bool :=
  if iter = last then some true
  else if h : iter < buf.length then
    if is_newline buf[iter] then some true
    else if buf[iter] = ';' then some false
    else is_import_line_loop buf last (iter + 1)
  else none
termination_by buf.length - iter

/-- Function `is_import_line`: scans from `lex.first`; the lexer is not modified. -/
def is_import_line (lex : Lexer) : Option Bool :=
  is_import_line_loop lex.buf lex.last lex.first

/-- The loop of `remaining_dots`: `while (iter != last and is_file_rest(*iter))
{ if (*iter == '.') cnt++; ++iter; } return cnt;`. -/
def remaining_dots_loop (buf : List Char) (last : Nat) (cnt : Nat) (iter : Nat) : Option Nat :=
  if iter = last then some cnt
  else if h : iter < buf.length then
    if is_file_rest buf[iter] then
      remaining_dots_loop buf last (if buf[iter] = '.' then cnt + 1 else cnt) (iter + 1)
    else some cnt
  else none
termination_by buf.length - iter

/-- Function `remaining_dots`: counts from `lex.first` with `cnt = 0`. -/
def remaining_dots (lex : Lexer) : Option Nat :=
  remaining_dots_loop lex.buf lex.last 0 lex.first

/-- The body of the do-while loop of `module` after the step past a preceding
dot: the scan to the next dot, the two look-ahead tests and the token that is
built; it yields the lexer after the body and the position `iter` the loop
condition reads. -/
def module_rest (lex : Lexer) : Option (Lexer × Nat) :=
  -- stop scanning when a '.' is found which defines directory/file/method
  match scan_while (fun c => is_file_rest c && c != '.') lex.buf lex.last lex.first with
  | none => none
  | some iter =>
    match is_import_line lex, remaining_dots lex, extract lex.buf lex.first iter with
    | some import_line, some dots, some str =>
      if (!import_line && decide (dots > 1)) || (import_line && decide (dots = 1)) then
        -- Build the directory.
        some (advance (save lex .directory_tok str) (iter - lex.first), iter)
      else if (!import_line && decide (dots = 1)) || (import_line && decide (dots = 0)) then
        -- Build the file
        some (advance (save lex .file_tok str) (iter - lex.first), iter)
      else some (lex, iter)
    | _, _, _ => none

/-- The body of the do-while loop of `module`: `if (*lex.first == '.')
advance(lex, 1);` and then the rest of the body. -/
def module_body (lex : Lexer) : Option (Lexer × Nat) :=
  match lex.buf[lex.first]? with
  | none => none
  | some c => module_rest (if c = '.' then advance lex 1 else lex)

/-- Function `module`: the do-while loop `do { body } while (*iter == '.');`, run
with a bound `fuel` on the number of iterations. -/
def module (fuel : Nat) (lex : Lexer) : Run Lexer :=
  match fuel with
  | 0 => .out_of_fuel
  | fuel + 1 =>
    match module_body lex with
    | none => .undefined
    | some (lex1, iter) =>
      match lex1.buf[iter]? with
      | none => .undefined
      | some c => if c = '.' then module fuel lex1 else .done lex1

/-- Function `integer`: lexes a decimal literal. -/
def integer (lex : Lexer) : Option Lexer :=
  match scan_while is_digit lex.buf lex.last (lex.first + 1) with
  | none => none
  | some iter =>
    match extract lex.buf lex.first iter with
    | none => none
    | some str => some (advance (save lex .decimal_literal_tok str) (iter - lex.first))

/-- The loop of `string`: `while (iter != last && *iter != '"')
{ if (*iter == '\\') ++iter; ++iter; }`. -/
def string_loop (buf : List Char) (last : Nat) (iter : Nat) : Option Nat :=
  if iter = last then some iter
  else if h : iter < buf.length then
    if buf[iter] ≠ '"' then
      string_loop buf last (if buf[iter] = '\\' then iter + 1 + 1 else iter + 1)
    else some iter
  else none
termination_by buf.length - iter
decreasing_by all_goals (simp_wf; split <;> omega)

/-- Function `string`: lexes a string literal, keeping the enclosing quotes. -/
def string (lex : Lexer) : Option Lexer :=
  match string_loop lex.buf lex.last (lex.first + 1) with
  | none => none
  | some iter =>
    -- Keep the enclosing quote.
    match extract lex.buf lex.first (iter + 1) with
    | none => none
    | some str => some (advance (save lex .string_literal_tok str) (iter + 1 - lex.first))

/-- Function `comment`: `lex.first += 2;` then
`while (lex.first != lex.last and *lex.first != '\n') ++lex.first;`. -/
def comment (lex : Lexer) : Option Lexer :=
  match scan_while (fun c => c != '\n') lex.buf lex.last (lex.first + 2) with
  | none => none
  | some iter => some { lex with first := iter }

/-- The index, in the characters after the opening quote, of the first double
quote that is not escaped, a backslash escaping the single character after it. -/
def first_unescaped_quote : List Char → Option Nat
  | [] => none
  | c :: cs =>
    if c = '"' then some 0
    else if c = '\\' then
      match cs with
      | [] => none
      | _ :: cs1 => (first_unescaped_quote cs1).map (fun n => n + 2)
    else (first_unescaped_quote cs).map (fun n => n + 1)

/-- The characters of the input from the current position up to `lex.last`. -/
def remaining (lex : Lexer) : List Char := (lex.buf.take lex.last).drop lex.first

/-- Letters and digits, the characters of a path segment. -/
def is_letter_or_digit (c : Char) : Bool := c.isAlpha || c.isDigit

/-- The segments of a path, each preceded by a dot: `.s1.s2. ... .sk`. -/
def dotted : List (List Char) → List Char
  | [] => []
  | s :: more => '.' :: (s ++ dotted more)

/-- The longest run of characters satisfying `p` that starts at position `start`
and lies before `lex.last`. -/
def run_from (p : Char → Bool) (lex : Lexer) (start : Nat) : List Char :=
  ((lex.buf.take lex.last).drop start).takeWhile p

/-- The kind and text of a token. -/
def Token.kind_text (t : Token) : Token_kind × String := (t.kind, t.str)

/-- The tokens of a path on a code line, by the number of dots that remain: a
directory for a segment followed by two or more segments, a file for the segment
before the last, nothing for the last segment, the member. -/
def code_line_tokens : List (List Char) → List (Token_kind × String)
  | [] => []
  | [_] => []
  | [f, _] => [(.file_tok, String.mk f)]
  | d :: s :: more => (.directory_tok, String.mk d) :: code_line_tokens (s :: more)

/-- A lexer on the text `a.b` that ends the input, in a buffer that holds the
terminator `\0` at `last`. -/
def sample_terminated_lexer : Lexer :=
  { buf := ['a', '.', 'b', '\x00'], first := 0, last := 3, loc := { line := 1, col := 1 },
    toks := [] }

/-- A lexer at the start of the text `s`, with no token saved yet. -/
def lexer_on (s : List Char) : Lexer :=
  { buf := s, first := 0, last := s.length, loc := { line := 1, col := 1 }, toks := [] }

/-- The lexer on the import line `a.b` that ends the input, after the first pass
of `module`: the directory token `a` is saved and the position is at the dot. -/
def sample_import_pass1 : Lexer :=
  { buf := ['a', '.', 'b'], first := 1, last := 3, loc := { line := 1, col := 2 },
    toks := [{ loc := { line := 1, col := 1 }, kind := .directory_tok, str := "a" }] }

/-- The lexer on the import line `a.b` that ends the input, after the second pass
of `module`: the file token `b` is saved too and the position is at `last`. -/
def sample_import_pass2 : Lexer :=
  { buf := ['a', '.', 'b'], first := 3, last := 3, loc := { line := 1, col := 4 },
    toks := [{ loc := { line := 1, col := 1 }, kind := .directory_tok, str := "a" },
             { loc := { line := 1, col := 3 }, kind := .file_tok, str := "b" }] }

end lex

end Waffle

/-! # Theorems -/

namespace Waffle

/-! ## Ref -/

/-- C1: for every expression `e` (a pointer designating an object `d` of the
heap), `Ref(e)` and `Ref(l, e)` are built with kind `ref_term`, their cached type
is exactly `e->tr` as it is at construction, and `decl()` returns `e`. -/
theorem Ref_ctor_caches_referent_type (h : Heap) (e : Ptr) (d : Expr) (l : Location)
    (hd : h.deref e = some d) :
    (∃ r, Ref.ctor h e = some r ∧ r.tr = d.tr ∧ r.decl = e ∧ r.kind = ref_term ∧
      r.loc = none) ∧
    (∃ r, Ref.ctor_loc h l e = some r ∧ r.tr = d.tr ∧ r.decl = e ∧ r.kind = ref_term ∧
      r.loc = some l) := by
  constructor
  · refine ⟨{ toExpr := Expr.ctor ref_term d.tr, t1 := e }, ?_, rfl, rfl, rfl, rfl⟩
    simp [Ref.ctor, hd]
  · refine ⟨{ toExpr := Expr.ctor_loc ref_term l d.tr, t1 := e }, ?_, rfl, rfl, rfl, rfl⟩
    simp [Ref.ctor_loc, hd]

/-- Witness for C1 on the sample heap: a `Ref` to the `Var` at address 3, whose
cached type is the `Nat` type at address 0. -/
theorem Ref_ctor_caches_referent_type_witness :
    sample_heap.deref (some 3) = some (Var.ctor (some 2) (some 0)).toExpr ∧
    (∃ r, Ref.ctor sample_heap (some 3) = some r ∧ r.tr = some 0 ∧ r.decl = some 3 ∧
      r.kind = ref_term ∧ r.loc = none) ∧
    (∃ r, Ref.ctor_loc sample_heap ⟨1, 1⟩ (some 3) = some r ∧ r.tr = some 0 ∧
      r.decl = some 3 ∧ r.kind = ref_term ∧ r.loc = some ⟨1, 1⟩) :=
  ⟨by decide,
    Ref_ctor_caches_referent_type sample_heap (some 3) (Var.ctor (some 2) (some 0)).toExpr
      ⟨1, 1⟩ (by decide)⟩

/-- Reading the cached type of an object of the heap other than the one assigned to. -/
theorem Heap.tr_of_assign_tr_ne (h : Heap) (d a : Nat) (t : Ptr) (hne : d ≠ a) :
    (h.assign_tr d t).tr_of (some a) = h.tr_of (some a) := by
  simp [Heap.tr_of, Heap.deref, Heap.assign_tr, List.getElem?_modify, hne]

/-- Reading the cached type of the object just assigned to. -/
theorem Heap.tr_of_assign_tr_self (h : Heap) (d : Nat) (t : Ptr) (hd : d < h.length) :
    (h.assign_tr d t).tr_of (some d) = some t := by
  simp only [Heap.tr_of, Heap.deref, Heap.assign_tr,
    List.getElem?_modify, List.getElem?_eq_getElem hd]
  cases h[d] <;> rfl

/-- Counterexample to C2 as stated: on the sample heap, `r = Ref(e)` is built on the
`Var` at address 3 and placed at address 4; after the assignment of the `Bool`
type (address 1) to the slot of the `Var`, the cached type of `r` is still the
`Nat` type (address 0) and differs from the cached type of the `Var`. -/
theorem Ref_type_stale_after_assignment :
    Ref.ctor sample_heap (some 3) = some sample_ref ∧
    sample_heap.alloc (.ref sample_ref) = (sample_heap ++ [Object.ref sample_ref], 4) ∧
    ((sample_heap ++ [Object.ref sample_ref]).assign_tr 3 (some 1)).tr_of (some 4)
      = some (some 0) ∧
    ((sample_heap ++ [Object.ref sample_ref]).assign_tr 3 (some 1)).tr_of (some 3)
      = some (some 1) ∧
    ((sample_heap ++ [Object.ref sample_ref]).assign_tr 3 (some 1)).tr_of (some 4)
      ≠ ((sample_heap ++ [Object.ref sample_ref]).assign_tr 3 (some 1)).tr_of (some 3) := by
  decide

/-- C2 (amended): a `Ref` caches the type its referent has at construction. When
`r` is built on the declaration at address `d`, whose cached type is then
`dx.tr`, by either constructor, `Ref(d)` or `Ref(l, d)` for any location `l`,
and placed at a fresh address, then after any later assignment `d->tr = t` the
cached type of `r` is still `dx.tr` while the cached type of `d` is `t`; the two
agree exactly when `t` is the type `d` had at construction. -/
theorem Ref_type_is_referent_type_at_construction (h : Heap) (d : Nat) (t : Ptr)
    (dx : Expr) (r : Ref) (hd : h.deref (some d) = some dx)
    (hr : Ref.ctor h (some d) = some r ∨ ∃ l, Ref.ctor_loc h l (some d) = some r) :
    ((h.alloc (.ref r)).1.assign_tr d t).tr_of (some (h.alloc (.ref r)).2) = some dx.tr ∧
    ((h.alloc (.ref r)).1.assign_tr d t).tr_of (some d) = some t ∧
    (((h.alloc (.ref r)).1.assign_tr d t).tr_of (some (h.alloc (.ref r)).2)
        = ((h.alloc (.ref r)).1.assign_tr d t).tr_of (some d) ↔ t = dx.tr) := by
  have hlt : d < h.length := by
    by_contra hge
    have hnone : h[d]? = none := List.getElem?_eq_none (Nat.le_of_not_lt hge)
    simp [Heap.deref, hnone] at hd
  have hrtr : r.tr = dx.tr := by
    rcases hr with hr | ⟨l, hr⟩
    · simp only [Ref.ctor, hd, Option.some.injEq] at hr
      rw [← hr]
      rfl
    · simp only [Ref.ctor_loc, hd, Option.some.injEq] at hr
      rw [← hr]
      rfl
  have h1 : ((h.alloc (.ref r)).1.assign_tr d t).tr_of (some (h.alloc (.ref r)).2)
      = some dx.tr := by
    show ((h ++ [Object.ref r]).assign_tr d t).tr_of (some h.length) = some dx.tr
    rw [Heap.tr_of_assign_tr_ne _ _ _ _ (Nat.ne_of_lt hlt)]
    simp [Heap.tr_of, Heap.deref, Object.toExpr, hrtr]
  have h2 : ((h.alloc (.ref r)).1.assign_tr d t).tr_of (some d) = some t := by
    show ((h ++ [Object.ref r]).assign_tr d t).tr_of (some d) = some t
    apply Heap.tr_of_assign_tr_self
    simp only [List.length_append, List.length_singleton]
    omega
  refine ⟨h1, h2, ?_⟩
  rw [h1, h2]
  constructor
  · intro heq
    exact (Option.some.inj heq).symm
  · intro heq
    rw [heq]

/-- Witness for the amended C2 on the sample heap, assigning the `Bool` type at
address 1 to the `Var` at address 3, for a `Ref` built without a location and
for a `Ref` built with one. -/
theorem Ref_type_is_referent_type_at_construction_witness :
    (sample_heap.deref (some 3) = some (Var.ctor (some 2) (some 0)).toExpr ∧
      Ref.ctor sample_heap (some 3) = some sample_ref ∧
      ((sample_heap.alloc (.ref sample_ref)).1.assign_tr 3 (some 1)).tr_of
          (some (sample_heap.alloc (.ref sample_ref)).2) = some (some 0) ∧
      ((sample_heap.alloc (.ref sample_ref)).1.assign_tr 3 (some 1)).tr_of (some 3)
          = some (some 1) ∧
      (((sample_heap.alloc (.ref sample_ref)).1.assign_tr 3 (some 1)).tr_of
          (some (sample_heap.alloc (.ref sample_ref)).2)
          = ((sample_heap.alloc (.ref sample_ref)).1.assign_tr 3 (some 1)).tr_of (some 3)
        ↔ (some 1 : Ptr) = some 0)) ∧
    (Ref.ctor_loc sample_heap ⟨2, 7⟩ (some 3) = some sample_ref_loc ∧
      ((sample_heap.alloc (.ref sample_ref_loc)).1.assign_tr 3 (some 1)).tr_of
          (some (sample_heap.alloc (.ref sample_ref_loc)).2) = some (some 0) ∧
      ((sample_heap.alloc (.ref sample_ref_loc)).1.assign_tr 3 (some 1)).tr_of (some 3)
          = some (some 1) ∧
      (((sample_heap.alloc (.ref sample_ref_loc)).1.assign_tr 3 (some 1)).tr_of
          (some (sample_heap.alloc (.ref sample_ref_loc)).2)
          = ((sample_heap.alloc (.ref sample_ref_loc)).1.assign_tr 3 (some 1)).tr_of (some 3)
        ↔ (some 1 : Ptr) = some 0)) :=
  ⟨⟨by decide, by decide,
      Ref_type_is_referent_type_at_construction sample_heap 3 (some 1)
        (Var.ctor (some 2) (some 0)).toExpr sample_ref (by decide) (Or.inl (by decide))⟩,
    ⟨by decide,
      Ref_type_is_referent_type_at_construction sample_heap 3 (some 1)
        (Var.ctor (some 2) (some 0)).toExpr sample_ref_loc (by decide)
        (Or.inr ⟨⟨2, 7⟩, by decide⟩)⟩⟩

/-! ## Names and variables -/

/-- C3: names never carry a type. For every text `n` and location `l`, the nodes
`Id(n)`, `Id(l, n)` and `Mod_id(n)` have a null cached type and store `n` as their
text. -/
theorem names_carry_no_type (n : String) (l : Location) :
    ((Id.ctor n).tr = none ∧ (Id.ctor n).t1 = n) ∧
    ((Id.ctor_loc l n).tr = none ∧ (Id.ctor_loc l n).t1 = n ∧
      (Id.ctor_loc l n).loc = some l) ∧
    ((Mod_id.ctor n).tr = none ∧ (Mod_id.ctor n).t1 = n) :=
  ⟨⟨rfl, rfl⟩, ⟨rfl, rfl, rfl⟩, ⟨rfl, rfl⟩⟩

/-- C4: for every name `n` and type `t`, the node `Var(n, t)` (with or without a
location) has cached type `t`, `type()` returns that same `t` and `name()`
returns `n`. -/
theorem Var_cached_type_is_declared_type (n t : Ptr) (l : Location) :
    ((Var.ctor n t).tr = t ∧ (Var.ctor n t).type = t ∧ (Var.ctor n t).name = n ∧
      (Var.ctor n t).kind = var_term) ∧
    ((Var.ctor_loc l n t).tr = t ∧ (Var.ctor_loc l n t).type = t ∧
      (Var.ctor_loc l n t).name = n ∧ (Var.ctor_loc l n t).kind = var_term) :=
  ⟨⟨rfl, rfl, rfl, rfl⟩, ⟨rfl, rfl, rfl, rfl⟩⟩

/-! ## Kind tags -/

/-- Every node struct occurs in `all_structs`. -/
theorem mem_all_structs (s : Struct) : s ∈ all_structs := by
  cases s <;> decide

/-- The kind constants passed by the structs of `ast.hpp` are pairwise distinct. -/
theorem struct_kinds_nodup : (all_structs.map Struct.kind).Nodup := by
  decide

/-- C5: the kind tag determines the variant of a node. The kind constants declared
in `ast.hpp` are pairwise distinct, their ordinals are pairwise distinct within
each of the name, term and type categories, and no two node structs are
constructed with the same kind constant. -/
theorem kind_tag_determines_variant :
    declared_kinds.Nodup ∧
    (∀ c : Category, (ordinals_in c).Nodup) ∧
    Function.Injective Struct.kind := by
  refine ⟨by decide, ?_, ?_⟩
  · intro c
    cases c <;> decide
  · intro s₁ s₂ heq
    exact List.inj_on_of_nodup_map struct_kinds_nodup (mem_all_structs s₁)
      (mem_all_structs s₂) heq

/-- C6 at the failing input: `Mod_id(n)` is a `Name` (its base class), yet its
constructor sets the tag `mod_id_term`, built by `make_term_node`, so the tag
classifies the node as a term; the sibling name struct `Id` sets a name tag, and
`Mod_id` is the only struct whose tag category differs from its base class. -/
theorem Mod_id_tag_is_term_category (n : String) :
    (Mod_id.ctor n).kind = make_term_node 67 ∧
    (Mod_id.ctor n).kind.cat = Category.term ∧
    Struct.kind .Mod_id = (Mod_id.ctor n).kind ∧
    Struct.base .Mod_id = Category.name ∧
    (Struct.kind .Mod_id).cat ≠ Struct.base .Mod_id ∧
    (Id.ctor n).kind.cat = Struct.base .Id ∧
    all_structs.filter (fun s => decide (s.kind.cat ≠ s.base)) = [.Mod_id] := by
  refine ⟨rfl, rfl, rfl, rfl, by decide, rfl, by decide⟩

/-! ## Token table -/

/-- C10: `init_tokens` registers exactly the token table the spec lists: the 13
keyword spellings, the 3 type names and the identifier, decimal and file kinds,
each spelling for the token kind of the same name; no spelling and no token kind
is registered twice. -/
theorem init_tokens_registers_spec_table :
    init_tokens [] = spec_token_table ∧
    (init_tokens []).length = 19 ∧
    (((init_tokens []).map Prod.snd).take 13 = spec_keywords ∧
      ((init_tokens []).map Prod.fst).take 13 =
        [.def_tok, .else_tok, .false_tok, .if_tok, .iszero_tok, .print_tok, .pred_tok,
         .succ_tok, .then_tok, .true_tok, .typeof_tok, .unit_tok, .import_tok]) ∧
    ((((init_tokens []).map Prod.snd).drop 13).take 3 = spec_type_names ∧
      (((init_tokens []).map Prod.fst).drop 13).take 3 =
        [.bool_type_tok, .nat_type_tok, .unit_type_tok]) ∧
    ((init_tokens []).map Prod.fst).drop 16 =
      [.identifier_tok, .decimal_literal_tok, .file_tok] ∧
    ((init_tokens []).map Prod.snd).Nodup ∧
    ((init_tokens []).map Prod.fst).Nodup := by
  refine ⟨rfl, rfl, ⟨rfl, rfl⟩, ⟨rfl, rfl⟩, rfl, ?_, ?_⟩
  · decide
  · decide

/-! ## The structural relation `is_same` -/

theorem sizeOf_Ty_pos (a : Ty) : 0 < sizeOf a := by
  cases a <;> simp

theorem is_same_wild_aux : ∀ n (t u : Ty), sizeOf t + sizeOf u ≤ n →
    (∀ k, is_same (.Wild_type k t) u = is_same t u) ∧
    (∀ m, is_same t (.Wild_type m u) = is_same t u) := by
  intro n
  induction n with
  | zero =>
    intro t u h
    have := sizeOf_Ty_pos t
    omega
  | succ n ih =>
    intro t u h
    constructor
    · intro k
      cases u with
      | Wild_type m u1 =>
        rw [is_same]
        exact ((ih t u1 (by simp at h; omega)).2 m).symm
      | _ => simp [is_same]
    · intro m
      cases t with
      | Wild_type k t1 =>
        rw [is_same]
        exact ((ih t1 u (by simp at h; omega)).1 k).symm
      | _ => simp [is_same]


theorem is_same_wild_left (k : String) (t u : Ty) :
    is_same (.Wild_type k t) u = is_same t u :=
  (is_same_wild_aux _ t u (Nat.le_refl _)).1 k

theorem is_same_wild_right (m : String) (t u : Ty) :
    is_same t (.Wild_type m u) = is_same t u :=
  (is_same_wild_aux _ t u (Nat.le_refl _)).2 m

theorem is_same_seq_iff (ts us : List Ty) :
    is_same_seq ts us = true ↔ List.Forall₂ (fun t u => is_same t u = true) ts us := by
  induction ts generalizing us with
  | nil => cases us <;> simp [is_same_seq]
  | cons t ts ih => cases us <;> simp [is_same_seq, ih]

theorem is_same_member_iff (l : String) (t : Ty) (ns : List (String × Ty)) :
    is_same_member l t ns = true ↔ ∀ n ∈ ns, l = n.1 → is_same t n.2 = true := by
  induction ns with
  | nil => simp [is_same_member]
  | cons n ns ih =>
    obtain ⟨l1, u⟩ := n
    simp only [is_same_member, Bool.and_eq_true, ih, Bool.or_eq_true, bne_iff_ne, ne_eq,
      List.mem_cons, forall_eq_or_imp]
    constructor
    · rintro ⟨h1, h2⟩
      refine ⟨fun hl => ?_, h2⟩
      rcases h1 with h1 | h1
      · exact absurd hl h1
      · exact h1
    · rintro ⟨h1, h2⟩
      refine ⟨?_, h2⟩
      by_cases hl : l = l1
      · exact Or.inr (h1 hl)
      · exact Or.inl hl

theorem is_same_members_iff (ms ns : List (String × Ty)) :
    is_same_members ms ns = true ↔
      ∀ m ∈ ms, ∀ n ∈ ns, m.1 = n.1 → is_same m.2 n.2 = true := by
  induction ms with
  | nil => simp [is_same_members]
  | cons m ms ih =>
    obtain ⟨l, t⟩ := m
    simp [is_same_members, ih, is_same_member_iff]

theorem labels_covered_iff (ms ns : List (String × Ty)) :
    ms.all (fun m => ns.any (fun n => m.1 == n.1)) = true ↔
      ∀ m ∈ ms, ∃ n ∈ ns, m.1 = n.1 := by
  simp [List.all_eq_true, List.any_eq_true]

theorem is_same_Record_iff (ms ns : List (String × Ty)) :
    is_same (.Record_type ms) (.Record_type ns) = true ↔
      (∀ m ∈ ms, ∃ n ∈ ns, m.1 = n.1) ∧ (∀ n ∈ ns, ∃ m ∈ ms, n.1 = m.1) ∧
      ∀ m ∈ ms, ∀ n ∈ ns, m.1 = n.1 → is_same m.2 n.2 = true := by
  rw [is_same, Bool.and_eq_true, Bool.and_eq_true, labels_covered_iff, labels_covered_iff,
    is_same_members_iff, and_assoc]

theorem is_same_Variant_iff (ms ns : List (String × Ty)) :
    is_same (.Variant_type ms) (.Variant_type ns) = true ↔
      (∀ m ∈ ms, ∃ n ∈ ns, m.1 = n.1) ∧ (∀ n ∈ ns, ∃ m ∈ ms, n.1 = m.1) ∧
      ∀ m ∈ ms, ∀ n ∈ ns, m.1 = n.1 → is_same m.2 n.2 = true := by
  rw [is_same, Bool.and_eq_true, Bool.and_eq_true, labels_covered_iff, labels_covered_iff,
    is_same_members_iff, and_assoc]

theorem sizeOf_lt_of_mem_seq {t : Ty} {ts : List Ty} (h : t ∈ ts) : sizeOf t < sizeOf ts :=
  List.sizeOf_lt_of_mem h

theorem sizeOf_lt_of_mem_members {m : String × Ty} {ms : List (String × Ty)} (h : m ∈ ms) :
    sizeOf m.2 < sizeOf ms := by
  have h1 := List.sizeOf_lt_of_mem h
  obtain ⟨l, t⟩ := m
  simp at h1 ⊢
  omega

theorem forall₂_same_symm {ts us : List Ty}
    (h : List.Forall₂ (fun t u => is_same t u = true) ts us)
    (ih : ∀ t ∈ ts, ∀ u ∈ us, is_same t u = true → is_same u t = true) :
    List.Forall₂ (fun t u => is_same t u = true) us ts := by
  induction h with
  | nil => exact List.Forall₂.nil
  | cons hab _ ih2 =>
    refine List.Forall₂.cons (ih _ (List.mem_cons_self _ _) _ (List.mem_cons_self _ _) hab) ?_
    exact ih2 (fun t ht u hu => ih t (List.mem_cons_of_mem _ ht) u (List.mem_cons_of_mem _ hu))

theorem forall₂_same_trans {ts us vs : List Ty}
    (h1 : List.Forall₂ (fun t u => is_same t u = true) ts us)
    (h2 : List.Forall₂ (fun t u => is_same t u = true) us vs)
    (ih : ∀ t ∈ ts, ∀ u ∈ us, ∀ v ∈ vs,
      is_same t u = true → is_same u v = true → is_same t v = true) :
    List.Forall₂ (fun t u => is_same t u = true) ts vs := by
  induction h1 generalizing vs with
  | nil => cases h2; exact List.Forall₂.nil
  | cons hab _ ih2 =>
    cases h2 with
    | cons hbc hrest =>
      refine List.Forall₂.cons (ih _ (List.mem_cons_self _ _) _ (List.mem_cons_self _ _) _
        (List.mem_cons_self _ _) hab hbc) ?_
      exact ih2 hrest (fun t ht u hu v hv =>
        ih t (List.mem_cons_of_mem _ ht) u (List.mem_cons_of_mem _ hu) v
          (List.mem_cons_of_mem _ hv))

theorem is_same_symm_aux : ∀ n (a b : Ty), sizeOf a + sizeOf b ≤ n →
    is_same a b = true → is_same b a = true := by
  intro n
  induction n with
  | zero =>
    intro a b h
    have := sizeOf_Ty_pos a
    omega
  | succ n ih =>
    intro a b hsz h
    cases a <;> cases b
    case Arrow_type.Arrow_type a1 a2 b1 b2 =>
      simp only [is_same, Bool.and_eq_true] at h ⊢
      simp only [Ty.Arrow_type.sizeOf_spec] at hsz
      exact ⟨ih a1 b1 (by omega) h.1, ih a2 b2 (by omega) h.2⟩
    case Fn_type.Fn_type ps r qs s =>
      simp only [is_same, Bool.and_eq_true, is_same_seq_iff] at h ⊢
      simp only [Ty.Fn_type.sizeOf_spec] at hsz
      refine ⟨forall₂_same_symm h.1 (fun t ht u hu => ih t u ?_), ih r s (by omega) h.2⟩
      have := sizeOf_lt_of_mem_seq ht
      have := sizeOf_lt_of_mem_seq hu
      omega
    case Tuple_type.Tuple_type ts us =>
      simp only [is_same, is_same_seq_iff] at h ⊢
      simp only [Ty.Tuple_type.sizeOf_spec] at hsz
      refine forall₂_same_symm h (fun t ht u hu => ih t u ?_)
      have := sizeOf_lt_of_mem_seq ht
      have := sizeOf_lt_of_mem_seq hu
      omega
    case List_type.List_type t u =>
      simp only [is_same] at h ⊢
      simp only [Ty.List_type.sizeOf_spec] at hsz
      exact ih t u (by omega) h
    case Record_type.Record_type ms ns =>
      rw [is_same_Record_iff] at h ⊢
      simp only [Ty.Record_type.sizeOf_spec] at hsz
      refine ⟨h.2.1, h.1, fun x hx y hy hl => ih y.2 x.2 ?_ (h.2.2 y hy x hx hl.symm)⟩
      have := sizeOf_lt_of_mem_members hx
      have := sizeOf_lt_of_mem_members hy
      omega
    case Variant_type.Variant_type ms ns =>
      rw [is_same_Variant_iff] at h ⊢
      simp only [Ty.Variant_type.sizeOf_spec] at hsz
      refine ⟨h.2.1, h.1, fun x hx y hy hl => ih y.2 x.2 ?_ (h.2.2 y hy x hx hl.symm)⟩
      have := sizeOf_lt_of_mem_members hx
      have := sizeOf_lt_of_mem_members hy
      omega
    all_goals first
      | (rw [is_same_wild_left] at h
         rw [is_same_wild_right]
         exact ih _ _ (by simp only [Ty.Wild_type.sizeOf_spec] at hsz ⊢; omega) h)
      | (rw [is_same_wild_right] at h
         rw [is_same_wild_left]
         exact ih _ _ (by simp only [Ty.Wild_type.sizeOf_spec] at hsz ⊢; omega) h)
      | (simp [is_same] at h; done)
      | simp [is_same]


theorem is_same_trans_aux : ∀ n (a b c : Ty), sizeOf a + sizeOf b + sizeOf c ≤ n →
    is_same a b = true → is_same b c = true → is_same a c = true := by
  intro n
  induction n with
  | zero =>
    intro a b c h
    have := sizeOf_Ty_pos a
    omega
  | succ n ih =>
    intro a b c hsz hab hbc
    cases a
    case Wild_type k t =>
      rw [is_same_wild_left] at hab ⊢
      exact ih t b c (by simp only [Ty.Wild_type.sizeOf_spec] at hsz; omega) hab hbc
    all_goals cases b
    all_goals try (simp [is_same] at hab; done)
    all_goals try
      (rw [is_same_wild_right] at hab
       rw [is_same_wild_left] at hbc
       exact ih _ _ _ (by simp only [Ty.Wild_type.sizeOf_spec] at hsz; omega) hab hbc)
    all_goals cases c
    all_goals try (simp [is_same] at hbc; done)
    all_goals try
      (rw [is_same_wild_right] at hbc ⊢
       exact ih _ _ _ (by simp only [Ty.Wild_type.sizeOf_spec] at hsz; omega) hab hbc)
    case Arrow_type.Arrow_type.Arrow_type a1 a2 b1 b2 c1 c2 =>
      simp only [is_same, Bool.and_eq_true] at hab hbc ⊢
      simp only [Ty.Arrow_type.sizeOf_spec] at hsz
      exact ⟨ih a1 b1 c1 (by omega) hab.1 hbc.1, ih a2 b2 c2 (by omega) hab.2 hbc.2⟩
    case Fn_type.Fn_type.Fn_type ps r qs s us v =>
      simp only [is_same, Bool.and_eq_true, is_same_seq_iff] at hab hbc ⊢
      simp only [Ty.Fn_type.sizeOf_spec] at hsz
      refine ⟨forall₂_same_trans hab.1 hbc.1 (fun t ht u hu w hw => ih t u w ?_),
        ih r s v (by omega) hab.2 hbc.2⟩
      have := sizeOf_lt_of_mem_seq ht
      have := sizeOf_lt_of_mem_seq hu
      have := sizeOf_lt_of_mem_seq hw
      omega
    case Tuple_type.Tuple_type.Tuple_type ts us vs =>
      simp only [is_same, is_same_seq_iff] at hab hbc ⊢
      simp only [Ty.Tuple_type.sizeOf_spec] at hsz
      refine forall₂_same_trans hab hbc (fun t ht u hu w hw => ih t u w ?_)
      have := sizeOf_lt_of_mem_seq ht
      have := sizeOf_lt_of_mem_seq hu
      have := sizeOf_lt_of_mem_seq hw
      omega
    case List_type.List_type.List_type t u v =>
      simp only [is_same] at hab hbc ⊢
      simp only [Ty.List_type.sizeOf_spec] at hsz
      exact ih t u v (by omega) hab hbc
    case Record_type.Record_type.Record_type ms ns ps =>
      rw [is_same_Record_iff] at hab hbc ⊢
      simp only [Ty.Record_type.sizeOf_spec] at hsz
      refine ⟨fun x hx => ?_, fun z hz => ?_, fun x hx z hz hl => ?_⟩
      · obtain ⟨y, hy, hxy⟩ := hab.1 x hx
        obtain ⟨z, hz, hyz⟩ := hbc.1 y hy
        exact ⟨z, hz, hxy.trans hyz⟩
      · obtain ⟨y, hy, hzy⟩ := hbc.2.1 z hz
        obtain ⟨x, hx, hyx⟩ := hab.2.1 y hy
        exact ⟨x, hx, hzy.trans hyx⟩
      · obtain ⟨y, hy, hxy⟩ := hab.1 x hx
        refine ih x.2 y.2 z.2 ?_ (hab.2.2 x hx y hy hxy) (hbc.2.2 y hy z hz (hxy.symm.trans hl))
        have := sizeOf_lt_of_mem_members hx
        have := sizeOf_lt_of_mem_members hy
        have := sizeOf_lt_of_mem_members hz
        omega
    case Variant_type.Variant_type.Variant_type ms ns ps =>
      rw [is_same_Variant_iff] at hab hbc ⊢
      simp only [Ty.Variant_type.sizeOf_spec] at hsz
      refine ⟨fun x hx => ?_, fun z hz => ?_, fun x hx z hz hl => ?_⟩
      · obtain ⟨y, hy, hxy⟩ := hab.1 x hx
        obtain ⟨z, hz, hyz⟩ := hbc.1 y hy
        exact ⟨z, hz, hxy.trans hyz⟩
      · obtain ⟨y, hy, hzy⟩ := hbc.2.1 z hz
        obtain ⟨x, hx, hyx⟩ := hab.2.1 y hy
        exact ⟨x, hx, hzy.trans hyx⟩
      · obtain ⟨y, hy, hxy⟩ := hab.1 x hx
        refine ih x.2 y.2 z.2 ?_ (hab.2.2 x hx y hy hxy) (hbc.2.2 y hy z hz (hxy.symm.trans hl))
        have := sizeOf_lt_of_mem_members hx
        have := sizeOf_lt_of_mem_members hy
        have := sizeOf_lt_of_mem_members hz
        omega
    all_goals simp [is_same]

theorem well_formed_seq_iff (ts : List Ty) :
    well_formed_seq ts = true ↔ ∀ t ∈ ts, t.well_formed = true := by
  induction ts with
  | nil => simp [well_formed_seq]
  | cons t ts ih => simp [well_formed_seq, ih]

theorem well_formed_members_iff (ms : List (String × Ty)) :
    well_formed_members ms = true ↔ ∀ m ∈ ms, m.2.well_formed = true := by
  induction ms with
  | nil => simp [well_formed_members]
  | cons m ms ih =>
    obtain ⟨l, t⟩ := m
    simp [well_formed_members, ih]

theorem is_same_refl_aux : ∀ n (a : Ty), sizeOf a ≤ n → a.well_formed = true →
    is_same a a = true := by
  intro n
  induction n with
  | zero =>
    intro a h
    have := sizeOf_Ty_pos a
    omega
  | succ n ih =>
    intro a hsz hwf
    cases a
    case Arrow_type a1 a2 =>
      simp only [Ty.well_formed, is_same, Bool.and_eq_true] at hwf ⊢
      simp only [Ty.Arrow_type.sizeOf_spec] at hsz
      exact ⟨ih a1 (by omega) hwf.1, ih a2 (by omega) hwf.2⟩
    case Fn_type ps r =>
      simp only [Ty.well_formed, is_same, Bool.and_eq_true, is_same_seq_iff,
        well_formed_seq_iff] at hwf ⊢
      simp only [Ty.Fn_type.sizeOf_spec] at hsz
      refine ⟨List.forall₂_same.mpr (fun t ht => ih t ?_ (hwf.1 t ht)), ih r (by omega) hwf.2⟩
      have := sizeOf_lt_of_mem_seq ht
      omega
    case Tuple_type ts =>
      simp only [Ty.well_formed, is_same, is_same_seq_iff, well_formed_seq_iff] at hwf ⊢
      simp only [Ty.Tuple_type.sizeOf_spec] at hsz
      refine List.forall₂_same.mpr (fun t ht => ih t ?_ (hwf t ht))
      have := sizeOf_lt_of_mem_seq ht
      omega
    case List_type t =>
      simp only [Ty.well_formed, is_same] at hwf ⊢
      simp only [Ty.List_type.sizeOf_spec] at hsz
      exact ih t (by omega) hwf
    case Record_type ms =>
      rw [is_same_Record_iff]
      simp only [Ty.well_formed, Bool.and_eq_true, decide_eq_true_eq,
        well_formed_members_iff] at hwf
      simp only [Ty.Record_type.sizeOf_spec] at hsz
      refine ⟨fun x hx => ⟨x, hx, rfl⟩, fun x hx => ⟨x, hx, rfl⟩, fun x hx y hy hl => ?_⟩
      have hxy : x = y := List.inj_on_of_nodup_map hwf.1 hx hy hl
      subst hxy
      refine ih x.2 ?_ (hwf.2 x hx)
      have := sizeOf_lt_of_mem_members hx
      omega
    case Variant_type ms =>
      rw [is_same_Variant_iff]
      simp only [Ty.well_formed, Bool.and_eq_true, decide_eq_true_eq,
        well_formed_members_iff] at hwf
      simp only [Ty.Variant_type.sizeOf_spec] at hsz
      refine ⟨fun x hx => ⟨x, hx, rfl⟩, fun x hx => ⟨x, hx, rfl⟩, fun x hx y hy hl => ?_⟩
      have hxy : x = y := List.inj_on_of_nodup_map hwf.1 hx hy hl
      subst hxy
      refine ih x.2 ?_ (hwf.2 x hx)
      have := sizeOf_lt_of_mem_members hx
      omega
    case Wild_type k t =>
      simp only [Ty.well_formed, is_same] at hwf ⊢
      simp only [Ty.Wild_type.sizeOf_spec] at hsz
      exact ih t (by omega) hwf
    all_goals simp [is_same]

/-- C7: `is_same` is an equivalence relation on well-formed type expressions: it
is reflexive, `is_same(a, b)` implies `is_same(b, a)`, and `is_same(a, b)` with
`is_same(b, c)` implies `is_same(a, c)`. -/
theorem is_same_equivalence (a b c : Ty) (ha : a.well_formed = true)
    (hb : b.well_formed = true) (hc : c.well_formed = true) :
    (is_same a a = true ∧ is_same b b = true ∧ is_same c c = true) ∧
    (is_same a b = true → is_same b a = true) ∧
    (is_same a b = true → is_same b c = true → is_same a c = true) :=
  ⟨⟨is_same_refl_aux _ a (Nat.le_refl _) ha, is_same_refl_aux _ b (Nat.le_refl _) hb,
      is_same_refl_aux _ c (Nat.le_refl _) hc⟩,
    is_same_symm_aux _ a b (Nat.le_refl _),
    is_same_trans_aux _ a b c (Nat.le_refl _)⟩

/-- Witness for C7 on three record types that differ in the order of their labels
and in their wildcards. -/
theorem is_same_equivalence_witness :
    sample_record_a.well_formed = true ∧ sample_record_b.well_formed = true ∧
    sample_record_c.well_formed = true ∧
    is_same sample_record_a sample_record_a = true ∧
    is_same sample_record_a sample_record_b = true ∧
    is_same sample_record_b sample_record_a = true ∧
    is_same sample_record_b sample_record_c = true ∧
    is_same sample_record_a sample_record_c = true := by
  have hab : is_same sample_record_a sample_record_b = true := by
    simp [sample_record_a, sample_record_b, is_same, is_same_members, is_same_member]
  have hbc : is_same sample_record_b sample_record_c = true := by
    simp [sample_record_b, sample_record_c, is_same, is_same_members, is_same_member]
  have h := is_same_equivalence sample_record_a sample_record_b sample_record_c
    (by decide) (by decide) (by decide)
  exact ⟨by decide, by decide, by decide, h.1.1, hab, h.2.1 hab, hbc, h.2.2 hab hbc⟩

/-! ## Elaboration of conditionals -/

/-- On the modelled fragment the elaborator treats a conditional by `elaborate_if`
with itself as the elaborator of the subtrees. -/
theorem Elaborator.elaborate_If (err : Ty) (c t e : Tree) (st : Elaborator) :
    Elaborator.elaborate err (.If c t e) st
      = Elaborator.elaborate_if (Elaborator.elaborate err) err c t e st := by
  simp [Elaborator.elaborate, Elaborator.elaborate_if]

/-- C9: for every conditional `If(c, t, e)` whose condition elaborates to `Bool`
and whose branches elaborate to `is_same` types, whatever the elaborator `sub` of
the subterms, the result is the `If` node over the elaborated subterms whose
cached type is the type of the then-branch, and the rule records no diagnostic:
the elaborator state is the one left by the elaboration of `c`, `t` and `e`, so
no diagnostic at all is recorded when the subterms record none. -/
theorem elaborate_if_well_typed {T : Type} (sub : T → Elaborator → Term × Elaborator)
    (err : Ty) (c t e : T) (st : Elaborator)
    (hc : is_same (sub c st).1.tr .Bool_type = true)
    (hb : is_same (sub t (sub c st).2).1.tr (sub e (sub t (sub c st).2).2).1.tr = true) :
    (Elaborator.elaborate_if sub err c t e st).1
      = If_node (sub t (sub c st).2).1.tr (sub c st).1 (sub t (sub c st).2).1
          (sub e (sub t (sub c st).2).2).1 ∧
    (Elaborator.elaborate_if sub err c t e st).1.kind = if_term ∧
    (Elaborator.elaborate_if sub err c t e st).1.tr = (sub t (sub c st).2).1.tr ∧
    (Elaborator.elaborate_if sub err c t e st).2 = (sub e (sub t (sub c st).2).2).2 ∧
    ((sub e (sub t (sub c st).2).2).2.diags = st.diags →
      (Elaborator.elaborate_if sub err c t e st).2.diags = st.diags) := by
  have h1 : Elaborator.elaborate_if sub err c t e st
      = (If_node (sub t (sub c st).2).1.tr (sub c st).1 (sub t (sub c st).2).1
          (sub e (sub t (sub c st).2).2).1, (sub e (sub t (sub c st).2).2).2) := by
    simp [Elaborator.elaborate_if, Elaborator.if_rule, hc, hb]
  rw [h1]
  exact ⟨rfl, rfl, rfl, rfl, fun h => h⟩

/-- Witness for C9: `if true then 1 else 0` elaborates to an `If` node of type
`Nat` and records no diagnostic. -/
theorem elaborate_if_well_typed_witness :
    is_same (Elaborator.elaborate sample_error_type .True ⟨[]⟩).1.tr .Bool_type = true ∧
    is_same (Elaborator.elaborate sample_error_type (.Int 1) ⟨[]⟩).1.tr
      (Elaborator.elaborate sample_error_type (.Int 0) ⟨[]⟩).1.tr = true ∧
    (Elaborator.elaborate sample_error_type (.If .True (.Int 1) (.Int 0)) ⟨[]⟩).1
      = If_node .Nat_type (True_node .Bool_type) (Int_node .Nat_type 1)
          (Int_node .Nat_type 0) ∧
    (Elaborator.elaborate sample_error_type (.If .True (.Int 1) (.Int 0)) ⟨[]⟩).2.diags
      = [] := by
  have hc : is_same (Elaborator.elaborate sample_error_type .True ⟨[]⟩).1.tr .Bool_type
      = true := by
    simp [Elaborator.elaborate, True_node, Term.tr, is_same]
  have hb : is_same (Elaborator.elaborate sample_error_type (.Int 1) ⟨[]⟩).1.tr
      (Elaborator.elaborate sample_error_type (.Int 0) ⟨[]⟩).1.tr = true := by
    simp [Elaborator.elaborate, Int_node, Term.tr, is_same]
  have h := elaborate_if_well_typed (Elaborator.elaborate sample_error_type)
    sample_error_type Tree.True (Tree.Int 1) (Tree.Int 0) ⟨[]⟩ hc hb
  rw [Elaborator.elaborate_If]
  exact ⟨hc, hb, h.1, h.2.2.2.2 rfl⟩

namespace lex

/-! ## Character classes -/

/-- The characters accepted by `is_id_rest` are the set `[a-zA-Z0-9_]`. -/
theorem is_id_rest_iff (c : Char) :
    is_id_rest c = true ↔
      (('a' ≤ c ∧ c ≤ 'z') ∨ ('A' ≤ c ∧ c ≤ 'Z')) ∨ ('0' ≤ c ∧ c ≤ '9') ∨ c = '_' := by
  simp only [is_id_rest, Char.isAlpha, Char.isUpper, Char.isLower, Char.isDigit,
    Bool.or_eq_true, Bool.and_eq_true, decide_eq_true_eq, beq_iff_eq, Char.le_def]
  constructor
  · rintro ((h | h) | h)
    · rcases h with h | h
      · exact Or.inl (Or.inr h)
      · exact Or.inl (Or.inl h)
    · exact Or.inr (Or.inl h)
    · exact Or.inr (Or.inr h)
  · rintro ((h | h) | h | h)
    · exact Or.inl (Or.inl (Or.inr h))
    · exact Or.inl (Or.inl (Or.inl h))
    · exact Or.inl (Or.inr h)
    · exact Or.inr h

/-! ## Scanning loops -/

/-- The scanning loop stops after the longest run of characters satisfying `p`
that starts at `iter` and lies before `last`. -/
theorem scan_while_eq (p : Char → Bool) (buf : List Char) (last : Nat) :
    ∀ (k iter : Nat), last - iter = k → iter ≤ last → last ≤ buf.length →
      scan_while p buf last iter
        = some (iter + (((buf.take last).drop iter).takeWhile p).length) := by
  intro k
  induction k with
  | zero =>
    intro iter hk h1 h2
    have h : iter = last := by omega
    subst h
    rw [scan_while]
    simp
  | succ k ih =>
    intro iter hk h1 h2
    have hlt : iter < buf.length := by omega
    have hne : iter ≠ last := by omega
    have hlt2 : iter < (buf.take last).length := by
      rw [List.length_take]
      omega
    have hdrop : (buf.take last).drop iter = buf[iter] :: (buf.take last).drop (iter + 1) := by
      rw [List.drop_eq_getElem_cons hlt2, List.getElem_take]
    rw [scan_while, if_neg hne, dif_pos hlt, hdrop]
    by_cases hp : p buf[iter] = true
    · rw [if_pos hp, ih (iter + 1) (by omega) (by omega) h2, List.takeWhile_cons_of_pos hp]
      simp only [List.length_cons]
      congr 1
      omega
    · rw [if_neg hp, List.takeWhile_cons_of_neg hp]
      simp

/-- The character after the longest run, if any, does not satisfy `p`. -/
theorem getElem?_takeWhile_length (p : Char → Bool) (l : List Char) (d : Char)
    (h : l[(l.takeWhile p).length]? = some d) : p d = false := by
  induction l with
  | nil => simp at h
  | cons a l ih =>
    by_cases hp : p a = true
    · rw [List.takeWhile_cons_of_pos hp] at h
      simp only [List.length_cons, List.getElem?_cons_succ] at h
      exact ih h
    · rw [List.takeWhile_cons_of_neg hp] at h
      simp only [List.length_nil, List.getElem?_cons_zero, Option.some.injEq] at h
      rw [← h]
      simpa using hp

/-- The run is at most as long as the range it is taken from. -/
theorem run_from_length_le (p : Char → Bool) (lex : Lexer) (start : Nat) :
    start + (run_from p lex start).length ≤ max start (min lex.last lex.buf.length) := by
  have h := (List.takeWhile_prefix p (l := (lex.buf.take lex.last).drop start)).length_le
  simp only [List.length_drop, List.length_take] at h
  unfold run_from
  omega

/-- The characters of the buffer from `start` over the length of the run are the run. -/
theorem take_drop_run_from (p : Char → Bool) (lex : Lexer) (start : Nat) :
    (lex.buf.take (start + (run_from p lex start).length)).drop start
      = run_from p lex start := by
  have hpre := List.takeWhile_prefix p (l := (lex.buf.take lex.last).drop start)
  have h := List.prefix_iff_eq_take.mp hpre
  have hlen := hpre.length_le
  simp only [List.length_drop, List.length_take] at hlen
  unfold run_from
  by_cases hs : start ≤ lex.last
  · conv_rhs => rw [h]
    rw [List.take_drop, List.take_take]
    congr 2
    omega
  · have hnil : (lex.buf.take lex.last).drop start = [] := by
      apply List.drop_eq_nil_of_le
      rw [List.length_take]
      omega
    rw [hnil]
    simp

/-- The character after the run, when it lies before `lex.last`, does not satisfy `p`. -/
theorem run_from_next (p : Char → Bool) (lex : Lexer) (start : Nat) (d : Char)
    (hlt : start + (run_from p lex start).length < lex.last)
    (hd : lex.buf[start + (run_from p lex start).length]? = some d) : p d = false := by
  apply getElem?_takeWhile_length p ((lex.buf.take lex.last).drop start) d
  show ((lex.buf.take lex.last).drop start)[(run_from p lex start).length]? = some d
  rw [List.getElem?_drop, List.getElem?_take_of_lt hlt]
  exact hd

/-- A run that starts with a character satisfying `p` is that character followed
by the run from the next position. -/
theorem run_from_cons (p : Char → Bool) (lex : Lexer) (start : Nat) (c : Char)
    (h1 : start < lex.last) (hc : lex.buf[start]? = some c) (hp : p c = true) :
    run_from p lex start = c :: run_from p lex (start + 1) := by
  have hlt : start < lex.buf.length := by
    by_contra hge
    rw [List.getElem?_eq_none (Nat.le_of_not_lt hge)] at hc
    exact absurd hc (by simp)
  have hlt2 : start < (lex.buf.take lex.last).length := by
    rw [List.length_take]
    omega
  have hget : lex.buf[start] = c := by
    rw [List.getElem?_eq_getElem hlt] at hc
    exact Option.some.inj hc
  unfold run_from
  rw [List.drop_eq_getElem_cons hlt2, List.getElem_take, hget, List.takeWhile_cons_of_pos hp]

/-- The text between `first` and the end of the run that starts at `first + 1`. -/
theorem extract_run (p : Char → Bool) (lex : Lexer) (c : Char)
    (h1 : lex.first < lex.last) (h2 : lex.last ≤ lex.buf.length)
    (hc : lex.buf[lex.first]? = some c) :
    extract lex.buf lex.first (lex.first + 1 + (run_from p lex (lex.first + 1)).length)
      = some (String.mk (c :: run_from p lex (lex.first + 1))) := by
  have hle := run_from_length_le p lex (lex.first + 1)
  have hlt : lex.first < lex.buf.length := by omega
  have hget : lex.buf[lex.first] = c := by
    rw [List.getElem?_eq_getElem hlt] at hc
    exact Option.some.inj hc
  have hlt2 : lex.first
      < (lex.buf.take (lex.first + 1 + (run_from p lex (lex.first + 1)).length)).length := by
    rw [List.length_take]
    omega
  unfold extract
  rw [if_pos (by omega), List.drop_eq_getElem_cons hlt2, List.getElem_take, hget,
    take_drop_run_from]

/-- The scanning loop in terms of `run_from`. -/
theorem scan_while_run_from (p : Char → Bool) (lex : Lexer) (start : Nat)
    (h1 : start ≤ lex.last) (h2 : lex.last ≤ lex.buf.length) :
    scan_while p lex.buf lex.last start = some (start + (run_from p lex start).length) :=
  scan_while_eq p lex.buf lex.last _ start rfl h1 h2

/-! ## Identifiers, integers and comments -/

/-- The lexer after `id`: one token, whose text is the current character followed
by the run of `is_id_rest` characters, is saved and the position moves past it. -/
theorem id_eq (tab : Token_table) (lex : Lexer) (c : Char)
    (h1 : lex.first < lex.last) (h2 : lex.last ≤ lex.buf.length)
    (hc : lex.buf[lex.first]? = some c) :
    id tab lex = some
      { buf := lex.buf
        first := lex.first + (c :: run_from is_id_rest lex (lex.first + 1)).length
        last := lex.last
        loc := { line := lex.loc.line
                 col := lex.loc.col + (c :: run_from is_id_rest lex (lex.first + 1)).length }
        toks := lex.toks ++
          [{ loc := lex.loc
             kind := (keyword tab (String.mk (c :: run_from is_id_rest lex (lex.first + 1)))).getD
               .identifier_tok
             str := String.mk (c :: run_from is_id_rest lex (lex.first + 1)) }] } := by
  unfold id
  rw [scan_while_run_from is_id_rest lex (lex.first + 1) (by omega) h2]
  simp only [extract_run is_id_rest lex c h1 h2 hc]
  have hsub : lex.first + 1 + (run_from is_id_rest lex (lex.first + 1)).length - lex.first
      = (c :: run_from is_id_rest lex (lex.first + 1)).length := by
    simp only [List.length_cons]
    omega
  rw [hsub]
  cases keyword tab (String.mk (c :: run_from is_id_rest lex (lex.first + 1))) <;> rfl

/-- C12: when the current position is before the end, `id` saves exactly one token
whose text is the current character followed by the longest run of characters in
`[a-zA-Z0-9_]`, so that the character after the text, if any, is not in that
set, and advances the position (and the column) by exactly the length of that
text. -/
theorem id_saves_longest_run (tab : Token_table) (lex : Lexer) (c : Char)
    (h1 : lex.first < lex.last) (h2 : lex.last ≤ lex.buf.length)
    (hc : lex.buf[lex.first]? = some c) :
    id tab lex = some
      { buf := lex.buf
        first := lex.first + (c :: run_from is_id_rest lex (lex.first + 1)).length
        last := lex.last
        loc := { line := lex.loc.line
                 col := lex.loc.col + (c :: run_from is_id_rest lex (lex.first + 1)).length }
        toks := lex.toks ++
          [{ loc := lex.loc
             kind := (keyword tab (String.mk (c :: run_from is_id_rest lex (lex.first + 1)))).getD
               .identifier_tok
             str := String.mk (c :: run_from is_id_rest lex (lex.first + 1)) }] } ∧
    (∀ d ∈ run_from is_id_rest lex (lex.first + 1),
      (('a' ≤ d ∧ d ≤ 'z') ∨ ('A' ≤ d ∧ d ≤ 'Z')) ∨ ('0' ≤ d ∧ d ≤ '9') ∨ d = '_') ∧
    (∀ d, lex.first + (c :: run_from is_id_rest lex (lex.first + 1)).length < lex.last →
      lex.buf[lex.first + (c :: run_from is_id_rest lex (lex.first + 1)).length]? = some d →
      ¬ ((('a' ≤ d ∧ d ≤ 'z') ∨ ('A' ≤ d ∧ d ≤ 'Z')) ∨ ('0' ≤ d ∧ d ≤ '9') ∨ d = '_')) := by
  refine ⟨id_eq tab lex c h1 h2 hc, ?_, ?_⟩
  · intro d hd
    exact (is_id_rest_iff d).mp (List.mem_takeWhile_imp hd)
  · intro d hlt hd hset
    have hlen : lex.first + (c :: run_from is_id_rest lex (lex.first + 1)).length
        = lex.first + 1 + (run_from is_id_rest lex (lex.first + 1)).length := by
      simp only [List.length_cons]
      omega
    rw [hlen] at hlt hd
    have hfalse := run_from_next is_id_rest lex (lex.first + 1) d hlt hd
    rw [(is_id_rest_iff d).mpr hset] at hfalse
    exact absurd hfalse (by simp)

/-- The characters accepted by `is_digit` are the set `[0-9]`. -/
theorem is_digit_iff (c : Char) : is_digit c = true ↔ ('0' ≤ c ∧ c ≤ '9') := by
  simp only [is_digit, Char.isDigit, Bool.and_eq_true, decide_eq_true_eq, Char.le_def]
  constructor <;> (intro h; exact h)

/-- C18: when the current character is a digit, `integer` saves exactly one
decimal-literal token whose text is the longest run of digits starting at the
current position, and advances the position (and the column) by exactly the
length of that text. -/
theorem integer_saves_longest_digit_run (lex : Lexer) (c : Char)
    (h1 : lex.first < lex.last) (h2 : lex.last ≤ lex.buf.length)
    (hc : lex.buf[lex.first]? = some c) (hdig : '0' ≤ c ∧ c ≤ '9') :
    integer lex = some
      { buf := lex.buf
        first := lex.first + (run_from is_digit lex lex.first).length
        last := lex.last
        loc := { line := lex.loc.line
                 col := lex.loc.col + (run_from is_digit lex lex.first).length }
        toks := lex.toks ++
          [{ loc := lex.loc
             kind := .decimal_literal_tok
             str := String.mk (run_from is_digit lex lex.first) }] } ∧
    (∀ d ∈ run_from is_digit lex lex.first, '0' ≤ d ∧ d ≤ '9') ∧
    (∀ d, lex.first + (run_from is_digit lex lex.first).length < lex.last →
      lex.buf[lex.first + (run_from is_digit lex lex.first).length]? = some d →
      ¬ ('0' ≤ d ∧ d ≤ '9')) ∧
    0 < (run_from is_digit lex lex.first).length := by
  have hrun := run_from_cons is_digit lex lex.first c h1 hc ((is_digit_iff c).mpr hdig)
  refine ⟨?_, ?_, ?_, ?_⟩
  · unfold integer
    rw [scan_while_run_from is_digit lex (lex.first + 1) (by omega) h2]
    simp only [extract_run is_digit lex c h1 h2 hc]
    have hsub : lex.first + 1 + (run_from is_digit lex (lex.first + 1)).length - lex.first
        = (c :: run_from is_digit lex (lex.first + 1)).length := by
      simp only [List.length_cons]
      omega
    rw [hsub, hrun]
    rfl
  · intro d hd
    exact (is_digit_iff d).mp (List.mem_takeWhile_imp hd)
  · intro d hlt hd hset
    have hfalse := run_from_next is_digit lex lex.first d hlt hd
    rw [(is_digit_iff d).mpr hset] at hfalse
    exact absurd hfalse (by simp)
  · rw [hrun]
    simp

/-- C19: on an input that starts with `//` (the rule skips the first two
characters without inspecting them), `comment` saves no token and leaves the
position at the first newline character after the two slashes, or at the end of
the input when there is none: the characters skipped contain no newline. -/
theorem comment_stops_at_newline (lex : Lexer)
    (h1 : lex.first + 2 ≤ lex.last) (h2 : lex.last ≤ lex.buf.length) :
    comment lex = some
      { lex with
        first := lex.first + 2 + (run_from (fun c => c != '\n') lex (lex.first + 2)).length } ∧
    (∀ d ∈ run_from (fun c => c != '\n') lex (lex.first + 2), d ≠ '\n') ∧
    (lex.first + 2 + (run_from (fun c => c != '\n') lex (lex.first + 2)).length = lex.last ∨
      (lex.first + 2 + (run_from (fun c => c != '\n') lex (lex.first + 2)).length < lex.last ∧
        lex.buf[lex.first + 2 + (run_from (fun c => c != '\n') lex (lex.first + 2)).length]?
          = some '\n')) := by
  refine ⟨?_, ?_, ?_⟩
  · unfold comment
    rw [scan_while_run_from _ lex (lex.first + 2) h1 h2]
  · intro d hd
    have h := List.mem_takeWhile_imp hd
    simpa using h
  · have hle := run_from_length_le (fun c => c != '\n') lex (lex.first + 2)
    by_cases hend :
        lex.first + 2 + (run_from (fun c => c != '\n') lex (lex.first + 2)).length = lex.last
    · exact Or.inl hend
    · right
      have hlt :
          lex.first + 2 + (run_from (fun c => c != '\n') lex (lex.first + 2)).length
            < lex.last := by omega
      refine ⟨hlt, ?_⟩
      have hlt2 :
          lex.first + 2 + (run_from (fun c => c != '\n') lex (lex.first + 2)).length
            < lex.buf.length := by omega
      have hget := List.getElem?_eq_getElem hlt2
      have hnext := run_from_next (fun c => c != '\n') lex (lex.first + 2) _ hlt hget
      rw [hget]
      simpa using hnext

/-! ## Import lines -/

/-- The loop of `is_import_line` answers whether the characters from `iter` up to
the next newline, or up to `last`, contain no semicolon. -/
theorem is_import_line_loop_eq (buf : List Char) (last : Nat) :
    ∀ (k iter : Nat), last - iter = k → iter ≤ last → last ≤ buf.length →
      is_import_line_loop buf last iter
        = some (!(((buf.take last).drop iter).takeWhile (fun c => !is_newline c)).contains ';') := by
  intro k
  induction k with
  | zero =>
    intro iter hk h1 h2
    have h : iter = last := by omega
    subst h
    have hnil : (buf.take iter).drop iter = [] :=
      List.drop_eq_nil_of_le (by rw [List.length_take]; omega)
    rw [is_import_line_loop, hnil]
    simp
  | succ k ih =>
    intro iter hk h1 h2
    have hlt : iter < buf.length := by omega
    have hne : iter ≠ last := by omega
    have hlt2 : iter < (buf.take last).length := by
      rw [List.length_take]
      omega
    have hdrop : (buf.take last).drop iter = buf[iter] :: (buf.take last).drop (iter + 1) := by
      rw [List.drop_eq_getElem_cons hlt2, List.getElem_take]
    rw [is_import_line_loop, if_neg hne, dif_pos hlt, hdrop]
    by_cases hnl : is_newline buf[iter] = true
    · rw [if_pos hnl, List.takeWhile_cons_of_neg (by simp [hnl])]
      simp
    · rw [if_neg hnl, List.takeWhile_cons_of_pos (by simp [hnl])]
      by_cases hsemi : buf[iter] = ';'
      · rw [if_pos hsemi, hsemi]
        simp
      · have hb : (';' == buf[iter]) = false := by
          rw [beq_eq_false_iff_ne]
          exact fun h => hsemi h.symm
        rw [if_neg hsemi, ih (iter + 1) (by omega) (by omega) h2, List.contains_cons, hb,
          Bool.false_or]

/-- C20: `is_import_line` returns true if and only if no `;` occurs between the
current position and the next newline, or the end of the input when there is no
newline. The answer depends on those characters only, neither on what stands
before the current position nor on what follows the newline, and the function
returns nothing but the answer: the lexer is left as it is. -/
theorem is_import_line_iff (lex : Lexer) (h1 : lex.first ≤ lex.last)
    (h2 : lex.last ≤ lex.buf.length) :
    (is_import_line lex = some true ↔
      ';' ∉ run_from (fun c => !is_newline c) lex lex.first) ∧
    (is_import_line lex = some false ↔
      ';' ∈ run_from (fun c => !is_newline c) lex lex.first) ∧
    (∀ lex2 : Lexer, lex2.first ≤ lex2.last → lex2.last ≤ lex2.buf.length →
      run_from (fun c => !is_newline c) lex2 lex2.first
        = run_from (fun c => !is_newline c) lex lex.first →
      is_import_line lex2 = is_import_line lex) := by
  have key : ∀ l : Lexer, l.first ≤ l.last → l.last ≤ l.buf.length →
      is_import_line l = some (!(run_from (fun c => !is_newline c) l l.first).contains ';') :=
    fun l hl1 hl2 => is_import_line_loop_eq l.buf l.last _ l.first rfl hl1 hl2
  refine ⟨?_, ?_, ?_⟩
  · rw [key lex h1 h2]
    simp
  · rw [key lex h1 h2]
    simp
  · intro lex2 hl1 hl2 heq
    rw [key lex h1 h2, key lex2 hl1 hl2, heq]

/-! ## String literals -/

/-- The loop of `string` stops at the first unescaped double quote. -/
theorem string_loop_eq (buf : List Char) (last : Nat) :
    ∀ (k iter n : Nat), last - iter = k → iter ≤ last → last ≤ buf.length →
      first_unescaped_quote ((buf.take last).drop iter) = some n →
      string_loop buf last iter = some (iter + n) ∧ iter + n < last ∧
        buf[iter + n]? = some '"' := by
  intro k
  induction k using Nat.strong_induction_on with
  | _ k ih =>
    intro iter n hk h1 h2 hq
    by_cases hend : iter = last
    · subst hend
      have hnil : (buf.take iter).drop iter = [] :=
        List.drop_eq_nil_of_le (by rw [List.length_take]; omega)
      rw [hnil] at hq
      simp [first_unescaped_quote] at hq
    · have hlt : iter < buf.length := by omega
      have hlt2 : iter < (buf.take last).length := by
        rw [List.length_take]
        omega
      have hdrop : (buf.take last).drop iter
          = buf[iter] :: (buf.take last).drop (iter + 1) := by
        rw [List.drop_eq_getElem_cons hlt2, List.getElem_take]
      rw [hdrop] at hq
      unfold first_unescaped_quote at hq
      rw [string_loop, if_neg hend, dif_pos hlt]
      by_cases hquote : buf[iter] = '"'
      · rw [if_pos hquote] at hq
        have hn : n = 0 := (Option.some.inj hq).symm
        subst hn
        rw [if_neg (by simp [hquote])]
        refine ⟨rfl, by omega, ?_⟩
        rw [Nat.add_zero, List.getElem?_eq_getElem hlt, hquote]
      · rw [if_neg hquote] at hq
        rw [if_pos hquote]
        by_cases hesc : buf[iter] = '\\'
        · rw [if_pos hesc] at hq
          rw [if_pos hesc]
          by_cases hend2 : iter + 1 = last
          · have hnil : (buf.take last).drop (iter + 1) = [] := by
              apply List.drop_eq_nil_of_le
              rw [List.length_take]
              omega
            rw [hnil] at hq
            simp at hq
          · have hlt3 : iter + 1 < (buf.take last).length := by
              rw [List.length_take]
              omega
            rw [List.drop_eq_getElem_cons hlt3] at hq
            simp only [Option.map_eq_some'] at hq
            obtain ⟨m, hm, hmn⟩ := hq
            have := ih (last - (iter + 1 + 1)) (by omega) (iter + 1 + 1) m rfl (by omega) h2 hm
            subst hmn
            have e : iter + (m + 2) = iter + 1 + 1 + m := by omega
            rw [e]
            exact this
        · rw [if_neg hesc] at hq
          rw [if_neg hesc]
          simp only [Option.map_eq_some'] at hq
          obtain ⟨m, hm, hmn⟩ := hq
          have := ih (last - (iter + 1)) (by omega) (iter + 1) m rfl (by omega) h2 hm
          subst hmn
          have e : iter + (m + 1) = iter + 1 + m := by omega
          rw [e]
          exact this

/-- C17: on an input that starts with a double quote and later contains a double
quote that is not escaped, `string` saves exactly one string-literal token whose
text runs from the opening quote through the first unescaped closing quote, both
quotes included, and advances the position (and the column) by exactly the
length of that text. -/
theorem string_saves_through_closing_quote (lex : Lexer) (n : Nat)
    (h1 : lex.first < lex.last) (h2 : lex.last ≤ lex.buf.length)
    (hopen : lex.buf[lex.first]? = some '"')
    (hclose : first_unescaped_quote ((lex.buf.take lex.last).drop (lex.first + 1)) = some n) :
    string lex = some
      { buf := lex.buf
        first := lex.first + (n + 2)
        last := lex.last
        loc := { line := lex.loc.line, col := lex.loc.col + (n + 2) }
        toks := lex.toks ++
          [{ loc := lex.loc
             kind := .string_literal_tok
             str := String.mk ((lex.buf.take (lex.first + (n + 2))).drop lex.first) }] } ∧
    ((lex.buf.take (lex.first + (n + 2))).drop lex.first).length = n + 2 ∧
    ((lex.buf.take (lex.first + (n + 2))).drop lex.first).head? = some '"' ∧
    ((lex.buf.take (lex.first + (n + 2))).drop lex.first).getLast? = some '"' ∧
    lex.first + (n + 2) ≤ lex.last := by
  obtain ⟨hloop, hlt, hq⟩ :=
    string_loop_eq lex.buf lex.last _ (lex.first + 1) n rfl (by omega) h2 hclose
  have hlen : ((lex.buf.take (lex.first + (n + 2))).drop lex.first).length = n + 2 := by
    rw [List.length_drop, List.length_take]
    omega
  refine ⟨?_, hlen, ?_, ?_, by omega⟩
  · unfold string
    rw [hloop]
    have e1 : lex.first + 1 + n + 1 = lex.first + (n + 2) := by omega
    have e2 : lex.first + (n + 2) - lex.first = n + 2 := by omega
    simp only [extract, e1, e2]
    rw [if_pos (by omega)]
    rfl
  · rw [List.head?_drop, List.getElem?_take_of_lt (by omega)]
    exact hopen
  · rw [List.getLast?_eq_getElem?, hlen, List.getElem?_drop,
      List.getElem?_take_of_lt (by omega)]
    have e : lex.first + (n + 2 - 1) = lex.first + 1 + n := by omega
    rw [e]
    exact hq

/-! ## Module paths -/

/-- The loop of `remaining_dots` counts the dots in the longest run of
`is_file_rest` characters from `iter`. -/
theorem remaining_dots_loop_eq (buf : List Char) (last : Nat) :
    ∀ (k cnt iter : Nat), last - iter = k → iter ≤ last → last ≤ buf.length →
      remaining_dots_loop buf last cnt iter
        = some (cnt + (((buf.take last).drop iter).takeWhile is_file_rest).count '.') := by
  intro k
  induction k with
  | zero =>
    intro cnt iter hk h1 h2
    have h : iter = last := by omega
    subst h
    have hnil : (buf.take iter).drop iter = [] :=
      List.drop_eq_nil_of_le (by rw [List.length_take]; omega)
    rw [remaining_dots_loop, hnil]
    simp
  | succ k ih =>
    intro cnt iter hk h1 h2
    have hlt : iter < buf.length := by omega
    have hne : iter ≠ last := by omega
    have hlt2 : iter < (buf.take last).length := by
      rw [List.length_take]
      omega
    have hdrop : (buf.take last).drop iter = buf[iter] :: (buf.take last).drop (iter + 1) := by
      rw [List.drop_eq_getElem_cons hlt2, List.getElem_take]
    rw [remaining_dots_loop, if_neg hne, dif_pos hlt, hdrop]
    by_cases hp : is_file_rest buf[iter] = true
    · rw [if_pos hp, ih _ (iter + 1) (by omega) (by omega) h2, List.takeWhile_cons_of_pos hp]
      by_cases hdot : buf[iter] = '.'
      · rw [if_pos hdot, hdot, List.count_cons_self]
        congr 1
        omega
      · rw [if_neg hdot, List.count_cons_of_ne (fun h => hdot h.symm)]
    · rw [if_neg hp, List.takeWhile_cons_of_neg hp]
      simp

/-- A letter or digit is an `is_file_rest` character other than the dot. -/
theorem is_file_rest_of_letter_or_digit (c : Char) (h : is_letter_or_digit c = true) :
    (is_file_rest c && c != '.') = true := by
  have hne : c ≠ '.' := by
    rintro rfl
    revert h
    decide
  simp only [is_letter_or_digit] at h
  simp [is_file_rest, h, hne]

/-- A letter or digit is not a newline. -/
theorem not_newline_of_letter_or_digit (c : Char) (h : is_letter_or_digit c = true) :
    (!is_newline c) = true := by
  have hne : c ≠ '\n' := by
    rintro rfl
    revert h
    decide
  simp [is_newline, hne]

/-- A letter or digit is not a semicolon. -/
theorem ne_semicolon_of_letter_or_digit (c : Char) (h : is_letter_or_digit c = true) :
    c ≠ ';' := by
  rintro rfl
  revert h
  decide

/-- The longest run satisfying `p` of a list that starts with a run `s` satisfying
`p` followed by nothing or by a character that fails `p`. -/
theorem takeWhile_append_stop (p : Char → Bool) (s t : List Char)
    (hs : ∀ c ∈ s, p c = true) (ht : ∀ c ∈ t.head?, p c = false) :
    (s ++ t).takeWhile p = s := by
  induction s with
  | nil =>
    cases t with
    | nil => rfl
    | cons c t =>
      have hc : p c = false := ht c (by simp)
      simp [List.takeWhile_cons, hc]
  | cons a s ih =>
    have ha : p a = true := hs a (List.mem_cons_self _ _)
    rw [List.cons_append, List.takeWhile_cons_of_pos ha,
      ih (fun c hc => hs c (List.mem_cons_of_mem _ hc))]

/-- The longest run satisfying `p` of a list that starts with a run `s` satisfying `p`. -/
theorem takeWhile_append_run (p : Char → Bool) (s t : List Char)
    (hs : ∀ c ∈ s, p c = true) :
    (s ++ t).takeWhile p = s ++ t.takeWhile p := by
  induction s with
  | nil => rfl
  | cons a s ih =>
    have ha : p a = true := hs a (List.mem_cons_self _ _)
    rw [List.cons_append, List.takeWhile_cons_of_pos ha,
      ih (fun c hc => hs c (List.mem_cons_of_mem _ hc)), List.cons_append]

/-- The characters of dotted segments of letters and digits are `is_file_rest`
characters, no newlines and no semicolons. -/
theorem dotted_chars (more : List (List Char))
    (hmore : ∀ s ∈ more, ∀ c ∈ s, is_letter_or_digit c = true) :
    ∀ c ∈ dotted more, is_file_rest c = true ∧ (!is_newline c) = true ∧ c ≠ ';' := by
  induction more with
  | nil =>
    intro c hc
    simp [dotted] at hc
  | cons s more ih =>
    intro c hc
    simp only [dotted, List.mem_cons, List.mem_append] at hc
    rcases hc with hc | hc | hc
    · subst hc
      decide
    · have h := hmore s (List.mem_cons_self _ _) c hc
      have h1 := is_file_rest_of_letter_or_digit c h
      simp only [Bool.and_eq_true] at h1
      exact ⟨h1.1, not_newline_of_letter_or_digit c h, ne_semicolon_of_letter_or_digit c h⟩
    · exact ih (fun s hs => hmore s (List.mem_cons_of_mem _ hs)) c hc

/-- The number of dots in a segment of letters and digits followed by dotted
segments of letters and digits is the number of those segments. -/
theorem count_dots (s : List Char) (more : List (List Char))
    (hs : ∀ c ∈ s, is_letter_or_digit c = true)
    (hmore : ∀ s ∈ more, ∀ c ∈ s, is_letter_or_digit c = true) :
    (s ++ dotted more).count '.' = more.length := by
  have hseg : ∀ t : List Char, (∀ c ∈ t, is_letter_or_digit c = true) → t.count '.' = 0 := by
    intro t ht
    rw [List.count_eq_zero]
    intro hmem
    have := ht '.' hmem
    revert this
    decide
  induction more generalizing s with
  | nil => simp [dotted, hseg s hs]
  | cons t more ih =>
    rw [List.count_append, hseg s hs, dotted, List.count_cons_self,
      ih t (hmore t (List.mem_cons_self _ _)) (fun s hs => hmore s (List.mem_cons_of_mem _ hs))]
    simp

/-- The remaining input is no longer than the distance to `last`. -/
theorem remaining_length (lex : Lexer) (h2 : lex.last ≤ lex.buf.length) :
    (remaining lex).length = lex.last - lex.first := by
  unfold remaining
  rw [List.length_drop, List.length_take]
  omega

/-- Reading the buffer inside the remaining input. -/
theorem getElem?_of_remaining (lex : Lexer) (k : Nat) (c : Char)
    (h : (remaining lex)[k]? = some c) : lex.buf[lex.first + k]? = some c := by
  unfold remaining at h
  rw [List.getElem?_drop] at h
  have hlt : lex.first + k < lex.last := by
    by_contra hge
    rw [List.getElem?_eq_none (by rw [List.length_take]; omega)] at h
    exact absurd h (by simp)
  rw [List.getElem?_take_of_lt hlt] at h
  exact h

/-- The remaining input after `advance`. -/
theorem remaining_advance (lex : Lexer) (n : Nat) :
    remaining (advance lex n) = (remaining lex).drop n := by
  unfold remaining advance
  simp only [List.drop_drop]

/-- Saving a token does not move the lexer. -/
theorem remaining_save (lex : Lexer) (k : Token_kind) (str : String) :
    remaining (save lex k str) = remaining lex := rfl

/-- The text between `first` and a position inside the remaining input. -/
theorem extract_of_remaining (lex : Lexer) (s t : List Char)
    (h1 : lex.first ≤ lex.last) (h2 : lex.last ≤ lex.buf.length)
    (hrem : remaining lex = s ++ t) :
    extract lex.buf lex.first (lex.first + s.length) = some (String.mk s) := by
  have hlen := remaining_length lex h2
  rw [hrem, List.length_append] at hlen
  unfold extract
  rw [if_pos (by omega)]
  have e1 : (remaining lex).take s.length
      = (lex.buf.take (lex.first + s.length)).drop lex.first := by
    unfold remaining
    rw [List.take_drop, List.take_take, Nat.min_eq_left (by omega)]
  have e2 : (remaining lex).take s.length = s := by
    rw [hrem, List.take_left' rfl]
  rw [← e1, e2]

/-- The head of dotted segments followed by a character outside `is_file_rest`
is not a letter or digit. -/
theorem head_dotted_append (more : List (List Char)) (tail : List Char)
    (htail : ∀ c ∈ tail.head?, is_file_rest c = false) :
    ∀ c ∈ (dotted more ++ tail).head?, (is_file_rest c && c != '.') = false := by
  intro c hc
  cases more with
  | nil =>
    simp only [dotted, List.nil_append] at hc
    simp [htail c hc]
  | cons s more =>
    simp only [dotted, List.cons_append, List.head?_cons, Option.mem_def,
      Option.some.injEq] at hc
    subst hc
    decide

/-- One pass through the body of the loop of `module`, at the start of a segment
`s` of letters and digits followed by the dotted segments `more`: the token
built depends on the answer `b` of `is_import_line` and on the number of dots,
which is the number of segments that remain. -/
theorem module_rest_eq (lex : Lexer) (s : List Char) (more : List (List Char))
    (tail : List Char) (b : Bool)
    (h1 : lex.first ≤ lex.last) (h2 : lex.last ≤ lex.buf.length)
    (hrem : remaining lex = s ++ dotted more ++ tail)
    (hs : ∀ c ∈ s, is_letter_or_digit c = true)
    (hmore : ∀ s ∈ more, ∀ c ∈ s, is_letter_or_digit c = true)
    (htail : ∀ c ∈ tail.head?, is_file_rest c = false)
    (himp : is_import_line lex = some b) :
    module_rest lex = some
      (if (!b && decide (more.length > 1)) || (b && decide (more.length = 1)) then
          advance (save lex .directory_tok (String.mk s)) s.length
        else if (!b && decide (more.length = 1)) || (b && decide (more.length = 0)) then
          advance (save lex .file_tok (String.mk s)) s.length
        else lex,
       lex.first + s.length) := by
  have hscan : scan_while (fun c => is_file_rest c && c != '.') lex.buf lex.last lex.first
      = some (lex.first + s.length) := by
    rw [scan_while_run_from _ lex lex.first h1 h2]
    have hrun : run_from (fun c => is_file_rest c && c != '.') lex lex.first = s := by
      show (remaining lex).takeWhile _ = s
      rw [hrem, List.append_assoc]
      exact takeWhile_append_stop _ s _ (fun c hc => is_file_rest_of_letter_or_digit c (hs c hc))
        (head_dotted_append more tail htail)
    rw [hrun]
  have hdots : remaining_dots lex = some more.length := by
    unfold remaining_dots
    rw [remaining_dots_loop_eq lex.buf lex.last _ 0 lex.first rfl h1 h2]
    have hrun : ((lex.buf.take lex.last).drop lex.first).takeWhile is_file_rest
        = s ++ dotted more := by
      show (remaining lex).takeWhile _ = _
      rw [hrem]
      apply takeWhile_append_stop _ _ _ _ htail
      intro c hc
      rcases List.mem_append.mp hc with hc | hc
      · have h := is_file_rest_of_letter_or_digit c (hs c hc)
        simp only [Bool.and_eq_true] at h
        exact h.1
      · exact (dotted_chars more hmore c hc).1
    rw [hrun, count_dots s more hs hmore, Nat.zero_add]
  have hext : extract lex.buf lex.first (lex.first + s.length) = some (String.mk s) := by
    apply extract_of_remaining lex s (dotted more ++ tail) h1 h2
    rw [hrem, List.append_assoc]
  unfold module_rest
  rw [hscan]
  simp only [himp, hdots, hext]
  have e : lex.first + s.length - lex.first = s.length := by omega
  rw [e]
  split
  · rfl
  · split <;> rfl

/-- On a path of letters, digits and dots, `is_import_line` answers whether the
text after the path contains no semicolon before the next newline. -/
theorem is_import_line_on_path (lex : Lexer) (s : List Char) (more : List (List Char))
    (tail : List Char) (h1 : lex.first ≤ lex.last) (h2 : lex.last ≤ lex.buf.length)
    (hrem : remaining lex = s ++ dotted more ++ tail)
    (hs : ∀ c ∈ s, is_letter_or_digit c = true)
    (hmore : ∀ s ∈ more, ∀ c ∈ s, is_letter_or_digit c = true) :
    is_import_line lex
      = some (!(tail.takeWhile (fun c => !is_newline c)).contains ';') := by
  have hpath : ∀ c ∈ s ++ dotted more, (!is_newline c) = true ∧ c ≠ ';' := by
    intro c hc
    rcases List.mem_append.mp hc with hc | hc
    · exact ⟨not_newline_of_letter_or_digit c (hs c hc),
        ne_semicolon_of_letter_or_digit c (hs c hc)⟩
    · exact (dotted_chars more hmore c hc).2
  have hkey : is_import_line lex
      = some (!((remaining lex).takeWhile (fun c => !is_newline c)).contains ';') :=
    is_import_line_loop_eq lex.buf lex.last _ lex.first rfl h1 h2
  have hnot1 : ';' ∉ s := fun h => (hpath ';' (List.mem_append_left _ h)).2 rfl
  have hnot2 : ';' ∉ dotted more := fun h => (hpath ';' (List.mem_append_right _ h)).2 rfl
  rw [hkey, hrem, takeWhile_append_run _ _ _ (fun c hc => (hpath c hc).1)]
  congr 2
  rw [Bool.eq_iff_iff]
  simp [hnot1, hnot2]

/-- The character right after a prefix. -/
theorem getElem?_append_length (s : List Char) (c : Char) (t : List Char) :
    (s ++ c :: t)[s.length]? = some c := by
  induction s with
  | nil => simp
  | cons a s ih => simpa using ih

/-- The loop of `module` on a code line, entered at a pass whose body, after the
step past a dot, runs on `lexd` at the start of the segment `s` followed by the
dotted segments `more`. -/
theorem module_code_line_aux : ∀ (more : List (List Char)) (s : List Char) (lexd : Lexer)
    (tail : List Char),
    lexd.first ≤ lexd.last → lexd.last ≤ lexd.buf.length →
    remaining lexd = s ++ dotted more ++ tail →
    (∀ c ∈ s, is_letter_or_digit c = true) →
    (∀ t ∈ more, ∀ c ∈ t, is_letter_or_digit c = true) →
    (∀ c ∈ tail.head?, is_file_rest c = false) →
    ';' ∈ tail.takeWhile (fun c => !is_newline c) →
    ∀ (lex : Lexer) (fuel : Nat), module_body lex = module_rest lexd →
      more.length + 1 ≤ fuel →
      ∃ final, module fuel lex = .done final ∧
        final.toks.map Token.kind_text
          = lexd.toks.map Token.kind_text ++ code_line_tokens (s :: more) ∧
        remaining final = (s :: more).getLast (List.cons_ne_nil _ _) ++ tail ∧
        final.first + ((s :: more).getLast (List.cons_ne_nil _ _)).length
          = lexd.first + (s ++ dotted more).length ∧
        final.buf = lexd.buf ∧ final.last = lexd.last ∧
        final.loc.line = lexd.loc.line ∧
        final.loc.col + lexd.first = lexd.loc.col + final.first := by
  intro more
  induction more with
  | nil =>
    intro s lexd tail h1 h2 hrem hs hmore htail hsemi lex fuel hbody hfuel
    obtain ⟨fuel, rfl⟩ : ∃ n, fuel = n + 1 := ⟨fuel - 1, by omega⟩
    have himp : is_import_line lexd = some false := by
      rw [is_import_line_on_path lexd s [] tail h1 h2 hrem hs hmore]
      simp [hsemi]
    have hrest := module_rest_eq lexd s [] tail false h1 h2 hrem hs hmore htail himp
    simp only [List.length_nil] at hrest
    obtain ⟨c, tail1, rfl⟩ : ∃ c tail1, tail = c :: tail1 := by
      cases tail with
      | nil => simp at hsemi
      | cons c tail1 => exact ⟨c, tail1, rfl⟩
    have hc : is_file_rest c = false := htail c (by simp)
    have hread : lexd.buf[lexd.first + s.length]? = some c := by
      apply getElem?_of_remaining
      rw [hrem, dotted, List.append_nil]
      exact getElem?_append_length s c tail1
    have hne : c ≠ '.' := by
      rintro rfl
      revert hc
      decide
    refine ⟨lexd, ?_, ?_, ?_, ?_, rfl, rfl, rfl, rfl⟩
    · rw [module, hbody, hrest]
      simp [hread, hne]
    · simp [code_line_tokens]
    · rw [hrem]
      simp [dotted]
    · simp [dotted]
  | cons t more ih =>
    intro s lexd tail h1 h2 hrem hs hmore htail hsemi lex fuel hbody hfuel
    obtain ⟨fuel, rfl⟩ : ∃ n, fuel = n + 1 := ⟨fuel - 1, by simp at hfuel; omega⟩
    have himp : is_import_line lexd = some false := by
      rw [is_import_line_on_path lexd s (t :: more) tail h1 h2 hrem hs hmore]
      simp [hsemi]
    have hrest := module_rest_eq lexd s (t :: more) tail false h1 h2 hrem hs hmore htail himp
    have hlen := remaining_length lexd h2
    rw [hrem] at hlen
    simp only [List.length_append, dotted, List.length_cons] at hlen
    have hread : lexd.buf[lexd.first + s.length]? = some '.' := by
      apply getElem?_of_remaining
      rw [hrem, dotted, List.append_assoc, List.cons_append]
      exact getElem?_append_length s '.' _
    -- the token built for `s` and the lexer after it
    obtain ⟨k, hk, hrest1⟩ : ∃ k : Token_kind,
        code_line_tokens (s :: t :: more) = (k, String.mk s) :: code_line_tokens (t :: more) ∧
        module_rest lexd = some (advance (save lexd k (String.mk s)) s.length,
          lexd.first + s.length) := by
      cases more with
      | nil =>
        refine ⟨.file_tok, by simp [code_line_tokens], ?_⟩
        rw [hrest]
        simp
      | cons u more =>
        refine ⟨.directory_tok, by simp [code_line_tokens], ?_⟩
        rw [hrest]
        simp
    have hrem1 : remaining (advance (advance (save lexd k (String.mk s)) s.length) 1)
        = t ++ dotted more ++ tail := by
      rw [remaining_advance, remaining_advance, remaining_save, hrem]
      simp [dotted]
    have hbody1 : module_body (advance (save lexd k (String.mk s)) s.length)
        = module_rest (advance (advance (save lexd k (String.mk s)) s.length) 1) := by
      have hread1 : (advance (save lexd k (String.mk s)) s.length).buf[
          (advance (save lexd k (String.mk s)) s.length).first]? = some '.' := hread
      rw [module_body, hread1]
      simp
    obtain ⟨final, hrun, htoks, hremf, hfirst, hbuf, hlast, hline, hcol⟩ :=
      ih t (advance (advance (save lexd k (String.mk s)) s.length) 1) tail
        (by show lexd.first + s.length + 1 ≤ lexd.last; omega) h2 hrem1
        (hmore t (List.mem_cons_self _ _))
        (fun u hu => hmore u (List.mem_cons_of_mem _ hu)) htail hsemi
        (advance (save lexd k (String.mk s)) s.length) fuel hbody1
        (by simp at hfuel; omega)
    refine ⟨final, ?_, ?_, ?_, ?_, hbuf, hlast, hline, ?_⟩
    · have hread2 : (advance (save lexd k (String.mk s)) s.length).buf[
          lexd.first + s.length]? = some '.' := hread
      rw [module, hbody, hrest1]
      simp only [hread2, if_true]
      exact hrun
    · rw [htoks, hk]
      simp [advance, save, Token.kind_text]
    · rw [hremf, List.getLast_cons (List.cons_ne_nil _ _)]
    · rw [List.getLast_cons (List.cons_ne_nil _ _), hfirst]
      simp only [advance, save, List.length_append, dotted, List.length_cons]
      omega
    · have : (advance (advance (save lexd k (String.mk s)) s.length) 1).loc.col
          = lexd.loc.col + s.length + 1 := rfl
      have : (advance (advance (save lexd k (String.mk s)) s.length) 1).first
          = lexd.first + s.length + 1 := rfl
      omega

/-- A path `s0.s1. ... .sk` is its first segment followed by the dotted others. -/
theorem intercalate_dot (s : List Char) (more : List (List Char)) :
    List.intercalate ['.'] (s :: more) = s ++ dotted more := by
  induction more generalizing s with
  | nil => simp [List.intercalate, dotted]
  | cons t more ih =>
    have h := ih t
    simp only [List.intercalate, List.intersperse, List.flatten_cons] at h ⊢
    rw [h]
    simp [dotted]

/-- The tokens of a path that ends with the file `f` and the member `m`. -/
theorem code_line_tokens_eq (dirs : List (List Char)) (f m : List Char) :
    code_line_tokens (dirs ++ [f, m])
      = dirs.map (fun d => (Token_kind.directory_tok, String.mk d))
          ++ [(Token_kind.file_tok, String.mk f)] := by
  induction dirs with
  | nil => simp [code_line_tokens]
  | cons d dirs ih =>
    obtain ⟨x, y, rest, hx⟩ : ∃ x y rest, dirs ++ [f, m] = x :: y :: rest := by
      cases dirs with
      | nil => exact ⟨f, m, [], rfl⟩
      | cons e dirs =>
        cases dirs with
        | nil => exact ⟨e, f, [m], rfl⟩
        | cons e2 dirs => exact ⟨e, e2, dirs ++ [f, m], rfl⟩
    rw [List.cons_append, List.map_cons, List.cons_append, ← ih, hx]
    cases rest <;> simp [code_line_tokens]

/-- The body of the loop of `module` does not step when the current character is
a letter or digit. -/
theorem module_body_at_segment (lex : Lexer) (s t : List Char) (hs0 : s ≠ [])
    (hs : ∀ c ∈ s, is_letter_or_digit c = true) (hrem : remaining lex = s ++ t) :
    module_body lex = module_rest lex := by
  obtain ⟨a, s1, rfl⟩ : ∃ a s1, s = a :: s1 := by
    cases s with
    | nil => exact absurd rfl hs0
    | cons a s1 => exact ⟨a, s1, rfl⟩
  have hread : lex.buf[lex.first]? = some a := by
    have h := getElem?_of_remaining lex 0 a (by rw [hrem]; simp)
    exact h
  have hne : a ≠ '.' := by
    have h := hs a (List.mem_cons_self _ _)
    rintro rfl
    revert h
    decide
  rw [module_body, hread]
  simp [hne]

/-- C15: on a code line (a `;` occurs after the path and before the next
newline), for a path `s0.s1. ... .sk` with at least one dot, written here as the
directories `dirs`, the file `f` and the member `m`, whose segments are non-empty
runs of letters and digits and which is followed by a character `c` that is not
a letter, digit or dot, `module` terminates, saves directory tokens for the
segments of `dirs` in order and then one file token for `f`, saves no token for
the member `m`, and leaves the position at the first character of `m`. -/
theorem module_on_code_line (lex : Lexer) (dirs : List (List Char)) (f m : List Char)
    (c : Char) (tail : List Char)
    (h1 : lex.first ≤ lex.last) (h2 : lex.last ≤ lex.buf.length)
    (hrem : remaining lex = List.intercalate ['.'] (dirs ++ [f, m]) ++ c :: tail)
    (hsegs : ∀ s ∈ dirs ++ [f, m], s ≠ [] ∧ ∀ x ∈ s, is_letter_or_digit x = true)
    (hc : is_file_rest c = false)
    (hsemi : ';' ∈ (c :: tail).takeWhile (fun x => !is_newline x)) :
    ∀ fuel, (dirs ++ [f, m]).length ≤ fuel →
      ∃ final, module fuel lex = .done final ∧
        final.toks.map Token.kind_text
          = lex.toks.map Token.kind_text
              ++ dirs.map (fun d => (Token_kind.directory_tok, String.mk d))
              ++ [(Token_kind.file_tok, String.mk f)] ∧
        remaining final = m ++ c :: tail ∧
        final.first + m.length
          = lex.first + (List.intercalate ['.'] (dirs ++ [f, m])).length ∧
        final.buf = lex.buf ∧ final.last = lex.last := by
  intro fuel hfuel
  obtain ⟨s0, more, hsm⟩ : ∃ s0 more, dirs ++ [f, m] = s0 :: more := by
    cases dirs with
    | nil => exact ⟨f, [m], rfl⟩
    | cons d dirs => exact ⟨d, dirs ++ [f, m], rfl⟩
  have htoks := code_line_tokens_eq dirs f m
  have hlast : (s0 :: more).getLast (List.cons_ne_nil _ _) = m := by
    have h : (s0 :: more).getLast? = some m := by
      rw [← hsm]
      simp
    rw [List.getLast?_eq_getLast _ (List.cons_ne_nil _ _)] at h
    exact Option.some.inj h
  rw [hsm] at hrem hsegs hfuel htoks ⊢
  rw [intercalate_dot] at hrem ⊢
  have hs0 := hsegs s0 (List.mem_cons_self _ _)
  have hmore : ∀ t ∈ more, ∀ x ∈ t, is_letter_or_digit x = true :=
    fun t ht => (hsegs t (List.mem_cons_of_mem _ ht)).2
  have hbody : module_body lex = module_rest lex :=
    module_body_at_segment lex s0 (dotted more ++ c :: tail) hs0.1 hs0.2
      (by rw [hrem, List.append_assoc])
  obtain ⟨final, hrun, hft, hfr, hff, hfb, hfl, _, _⟩ :=
    module_code_line_aux more s0 lex (c :: tail) h1 h2 hrem hs0.2 hmore
      (by intro x hx; simp at hx; rw [← hx]; exact hc) hsemi lex fuel hbody
      (by simp at hfuel; omega)
  refine ⟨final, hrun, ?_, ?_, ?_, hfb, hfl⟩
  · rw [hft, htoks, List.append_assoc]
  · rw [hfr, hlast]
  · rw [← hff, hlast]

/-- On an import line (no `;` between the current position and the next
newline or the end of the input), for a path `d.f` with exactly one dot whose
segments are runs of letters and digits, followed by a character `c` that is not
a letter, digit or dot (inside the input, or at its end where the loop test of
`module` reads it), `module` terminates and saves exactly two tokens, a
directory token with text `d` followed by a file token with text `f`, and
consumes the whole path including the dot. -/
theorem module_on_import_line (lex : Lexer) (d f : List Char) (c : Char) (tail : List Char)
    (h1 : lex.first ≤ lex.last) (h2 : lex.last ≤ lex.buf.length)
    (hrem : remaining lex = d ++ '.' :: f ++ tail)
    (hd : d ≠ [] ∧ ∀ x ∈ d, is_letter_or_digit x = true)
    (hf : f ≠ [] ∧ ∀ x ∈ f, is_letter_or_digit x = true)
    (hnext : lex.buf[lex.first + d.length + 1 + f.length]? = some c)
    (hc : is_file_rest c = false)
    (himport : ';' ∉ (remaining lex).takeWhile (fun x => !is_newline x)) :
    ∀ fuel, 2 ≤ fuel →
      module fuel lex = .done
        { buf := lex.buf
          first := lex.first + d.length + 1 + f.length
          last := lex.last
          loc := { line := lex.loc.line, col := lex.loc.col + d.length + 1 + f.length }
          toks := lex.toks ++
            [{ loc := lex.loc, kind := .directory_tok, str := String.mk d },
             { loc := { line := lex.loc.line, col := lex.loc.col + d.length + 1 }
               kind := .file_tok, str := String.mk f }] } := by
  intro fuel hfuel
  obtain ⟨fuel, rfl⟩ : ∃ n, fuel = n + 1 + 1 := ⟨fuel - 2, by omega⟩
  have hrem0 : remaining lex = d ++ dotted [f] ++ tail := by
    rw [hrem]
    simp [dotted]
  have hmore : ∀ t ∈ [f], ∀ x ∈ t, is_letter_or_digit x = true := by
    intro t ht
    rw [List.mem_singleton] at ht
    rw [ht]
    exact hf.2
  have hnone : ∀ t ∈ ([] : List (List Char)), ∀ x ∈ t, is_letter_or_digit x = true := by
    intro t ht
    simp at ht
  have hlen := remaining_length lex h2
  rw [hrem] at hlen
  simp only [List.length_append, List.length_cons] at hlen
  -- the text after the path holds no `;` before the next newline
  have himp0 := is_import_line_on_path lex d [f] tail h1 h2 hrem0 hd.2 hmore
  have hkey : is_import_line lex
      = some (!((remaining lex).takeWhile (fun x => !is_newline x)).contains ';') :=
    is_import_line_loop_eq lex.buf lex.last _ lex.first rfl h1 h2
  have himp : is_import_line lex = some true := by
    rw [hkey]
    simp [himport]
  have htailsemi : (!(tail.takeWhile (fun x => !is_newline x)).contains ';') = true := by
    rw [himp] at himp0
    exact (Option.some.inj himp0).symm
  -- the character after the path
  have htail : ∀ x ∈ tail.head?, is_file_rest x = false := by
    intro x hx
    cases tail with
    | nil => simp at hx
    | cons y tail1 =>
      simp only [List.head?_cons, Option.mem_def, Option.some.injEq] at hx
      subst hx
      have h := getElem?_of_remaining lex (d.length + 1 + f.length) y (by
        rw [hrem]
        have e : d ++ '.' :: f ++ y :: tail1 = (d ++ '.' :: f) ++ y :: tail1 := by simp
        have e2 : d.length + 1 + f.length = (d ++ '.' :: f).length := by
          simp only [List.length_append, List.length_cons]
          omega
        rw [e, e2]
        exact getElem?_append_length _ y tail1)
      rw [← Nat.add_assoc, ← Nat.add_assoc, hnext] at h
      rw [← Option.some.inj h]
      exact hc
  have hne : c ≠ '.' := by
    rintro rfl
    revert hc
    decide
  -- first pass: the directory
  have hbody : module_body lex = module_rest lex :=
    module_body_at_segment lex d ('.' :: f ++ tail) hd.1 hd.2
      (by rw [hrem, List.append_assoc])
  have hrest := module_rest_eq lex d [f] tail true h1 h2 hrem0 hd.2 hmore htail himp
  simp only [List.length_singleton] at hrest
  have hread : lex.buf[lex.first + d.length]? = some '.' := by
    apply getElem?_of_remaining
    rw [hrem, List.append_assoc]
    exact getElem?_append_length d '.' (f ++ tail)
  -- second pass: the file
  have hrem1 : remaining (advance (advance (save lex .directory_tok (String.mk d)) d.length) 1)
      = f ++ dotted [] ++ tail := by
    rw [remaining_advance, remaining_advance, remaining_save, hrem]
    simp [dotted]
  have himp1 : is_import_line
      (advance (advance (save lex .directory_tok (String.mk d)) d.length) 1) = some true := by
    rw [is_import_line_on_path
      (advance (advance (save lex .directory_tok (String.mk d)) d.length) 1) f [] tail
      (by show lex.first + d.length + 1 ≤ lex.last; omega) h2 hrem1 hf.2 hnone, htailsemi]
  have hrest1 := module_rest_eq
    (advance (advance (save lex .directory_tok (String.mk d)) d.length) 1) f [] tail true
    (by show lex.first + d.length + 1 ≤ lex.last; omega) h2 hrem1 hf.2 hnone htail himp1
  simp only [List.length_nil] at hrest1
  have hread1 : (advance (save lex .directory_tok (String.mk d)) d.length).buf[
      (advance (save lex .directory_tok (String.mk d)) d.length).first]? = some '.' := hread
  have hread2 : (advance (save lex .directory_tok (String.mk d)) d.length).buf[
      lex.first + d.length]? = some '.' := hread
  have hbody1 : module_body (advance (save lex .directory_tok (String.mk d)) d.length)
      = module_rest (advance (advance (save lex .directory_tok (String.mk d)) d.length) 1) := by
    rw [module_body, hread1]
    simp
  have hread3 : (advance (save (advance (advance (save lex .directory_tok (String.mk d))
      d.length) 1) .file_tok (String.mk f)) f.length).buf[
      (advance (advance (save lex .directory_tok (String.mk d)) d.length) 1).first
        + f.length]? = some c := hnext
  have hpass1 : module_rest lex
      = some (advance (save lex .directory_tok (String.mk d)) d.length,
          lex.first + d.length) := by
    rw [hrest]
    simp
  have hpass2 :
      module_rest (advance (advance (save lex .directory_tok (String.mk d)) d.length) 1)
      = some (advance (save (advance (advance (save lex .directory_tok (String.mk d))
          d.length) 1) .file_tok (String.mk f)) f.length,
          (advance (advance (save lex .directory_tok (String.mk d)) d.length) 1).first
            + f.length) := by
    rw [hrest1]
    simp
  rw [module, hbody, hpass1]
  simp only [hread2, if_true]
  rw [module, hbody1, hpass2]
  simp only [hread3, if_neg hne]
  simp [advance, save]

/-! ## Keywords and identifiers -/

/-- The lookup finds nothing exactly for the spellings that are not registered. -/
theorem keyword_eq_none_iff (tab : Token_table) (str : String) :
    keyword tab str = none ↔ str ∉ tab.map Prod.snd := by
  simp only [keyword, Option.map_eq_none', List.find?_eq_none, List.mem_map, Prod.exists,
    beq_iff_eq, Bool.not_eq_true, beq_eq_false_iff_ne, ne_eq, Prod.forall]
  constructor
  · rintro h ⟨a, b, hab, rfl⟩
    exact h a b hab rfl
  · intro h a b hab hb
    exact h ⟨a, b, hab, hb⟩

/-- With keyword lookup over all nineteen bindings that `init_tokens` registers,
the sixteen keywords and type names are found with their own kinds, every text
that is not one of the nineteen registered spellings is not found, so `id` saves
an identifier token for it, and `file`, `decimal` and `identifier` are found
too: `id` saves a file token for the lexeme `file` and a decimal-literal token
for the lexeme `decimal`. -/
theorem id_saves_file_token_for_file :
    id (init_tokens []) (lexer_on ['f', 'i', 'l', 'e', ';'])
      = some { buf := ['f', 'i', 'l', 'e', ';'], first := 4, last := 5
               loc := { line := 1, col := 5 }
               toks := [{ loc := { line := 1, col := 1 }, kind := .file_tok, str := "file" }] } ∧
    id (init_tokens []) (lexer_on ['d', 'e', 'c', 'i', 'm', 'a', 'l', ';'])
      = some { buf := ['d', 'e', 'c', 'i', 'm', 'a', 'l', ';'], first := 7, last := 8
               loc := { line := 1, col := 8 }
               toks := [{ loc := { line := 1, col := 1 }, kind := .decimal_literal_tok,
                          str := "decimal" }] } ∧
    keyword (init_tokens []) "file" = some .file_tok ∧
    keyword (init_tokens []) "decimal" = some .decimal_literal_tok ∧
    keyword (init_tokens []) "identifier" = some .identifier_tok ∧
    (spec_keywords ++ spec_type_names).map (keyword (init_tokens []))
      = [some .def_tok, some .else_tok, some .false_tok, some .if_tok, some .iszero_tok,
         some .print_tok, some .pred_tok, some .succ_tok, some .then_tok, some .true_tok,
         some .typeof_tok, some .unit_tok, some .import_tok, some .bool_type_tok,
         some .nat_type_tok, some .unit_type_tok] ∧
    (∀ str : String,
      str ∉ spec_keywords ++ spec_type_names ++ ["identifier", "decimal", "file"] →
      keyword (init_tokens []) str = none) := by
  have hk1 : keyword (init_tokens []) "file" = some .file_tok := by decide
  have hk2 : keyword (init_tokens []) "decimal" = some .decimal_literal_tok := by decide
  refine ⟨?_, ?_, hk1, hk2, by decide, by decide, ?_⟩
  · have hrun : run_from is_id_rest (lexer_on ['f', 'i', 'l', 'e', ';']) (0 + 1)
        = ['i', 'l', 'e'] := by decide
    have h := id_eq (init_tokens []) (lexer_on ['f', 'i', 'l', 'e', ';']) 'f' (by decide)
      (by decide) (by decide)
    have e : String.mk ['f', 'i', 'l', 'e'] = "file" := rfl
    rw [show (lexer_on ['f', 'i', 'l', 'e', ';']).first = 0 from rfl, hrun, e, hk1] at h
    exact h
  · have hrun : run_from is_id_rest (lexer_on ['d', 'e', 'c', 'i', 'm', 'a', 'l', ';']) (0 + 1)
        = ['e', 'c', 'i', 'm', 'a', 'l'] := by decide
    have h := id_eq (init_tokens []) (lexer_on ['d', 'e', 'c', 'i', 'm', 'a', 'l', ';']) 'd'
      (by decide) (by decide) (by decide)
    have e : String.mk ['d', 'e', 'c', 'i', 'm', 'a', 'l'] = "decimal" := rfl
    rw [show (lexer_on ['d', 'e', 'c', 'i', 'm', 'a', 'l', ';']).first = 0 from rfl, hrun, e,
      hk2] at h
    exact h
  · intro str hstr
    rw [keyword_eq_none_iff]
    exact hstr

/-! ## Module paths: `is_module` and `is_file_rest` -/

/-- The characters accepted by `is_file_rest` are the letters, the digits and the dot. -/
theorem is_file_rest_iff (c : Char) :
    is_file_rest c = true ↔
      (('a' ≤ c ∧ c ≤ 'z') ∨ ('A' ≤ c ∧ c ≤ 'Z')) ∨ ('0' ≤ c ∧ c ≤ '9') ∨ c = '.' := by
  simp only [is_file_rest, Char.isAlpha, Char.isUpper, Char.isLower, Char.isDigit,
    Bool.or_eq_true, Bool.and_eq_true, decide_eq_true_eq, beq_iff_eq, Char.le_def]
  constructor
  · rintro ((h | h) | h)
    · rcases h with h | h
      · exact Or.inl (Or.inr h)
      · exact Or.inl (Or.inl h)
    · exact Or.inr (Or.inl h)
    · exact Or.inr (Or.inr h)
  · rintro ((h | h) | h | h)
    · exact Or.inl (Or.inl (Or.inr h))
    · exact Or.inl (Or.inl (Or.inl h))
    · exact Or.inl (Or.inr h)
    · exact Or.inr h

/-- C14 at the failing input: `is_file_rest` rejects the underscore, which the
set `[a-zA-Z0-9_.]` of its comment contains; it accepts exactly the letters, the
digits and the dot, while the sibling `is_id_rest` does accept the underscore. -/
theorem is_file_rest_rejects_underscore :
    is_file_rest '_' = false ∧ is_id_rest '_' = true ∧
    (∀ c : Char, is_file_rest c = true ↔
      (('a' ≤ c ∧ c ≤ 'z') ∨ ('A' ≤ c ∧ c ≤ 'Z')) ∨ ('0' ≤ c ∧ c ≤ '9') ∨ c = '.') :=
  ⟨by decide, by decide, is_file_rest_iff⟩

/-- An `is_file_rest` character other than the dot is a letter or digit. -/
theorem letter_or_digit_of_is_file_rest (c : Char) (h : is_file_rest c = true)
    (hne : c ≠ '.') : is_letter_or_digit c = true := by
  simp only [is_file_rest, Bool.or_eq_true, beq_iff_eq] at h
  simp only [is_letter_or_digit, Bool.or_eq_true]
  rcases h with h | h
  · exact h
  · exact absurd h hne

/-- The loop of `is_module` answers whether the first character from `iter`,
before `last`, that is not a letter or digit is a dot. -/
theorem is_module_loop_eq (buf : List Char) (last : Nat) :
    ∀ (k iter : Nat), last - iter = k → iter ≤ last → last ≤ buf.length →
      is_module_loop buf last iter
        = some ((((buf.take last).drop iter).dropWhile is_letter_or_digit).head? == some '.') := by
  intro k
  induction k with
  | zero =>
    intro iter hk h1 h2
    have h : iter = last := by omega
    subst h
    have hnil : (buf.take iter).drop iter = [] :=
      List.drop_eq_nil_of_le (by rw [List.length_take]; omega)
    rw [is_module_loop, hnil]
    simp
  | succ k ih =>
    intro iter hk h1 h2
    have hlt : iter < buf.length := by omega
    have hne : iter ≠ last := by omega
    have hlt2 : iter < (buf.take last).length := by
      rw [List.length_take]
      omega
    have hdrop : (buf.take last).drop iter = buf[iter] :: (buf.take last).drop (iter + 1) := by
      rw [List.drop_eq_getElem_cons hlt2, List.getElem_take]
    rw [is_module_loop, if_neg hne, dif_pos hlt, hdrop]
    by_cases hp : is_file_rest buf[iter] = true
    · rw [if_pos hp]
      by_cases hdot : buf[iter] = '.'
      · rw [if_pos hdot, hdot, List.dropWhile_cons_of_neg (by decide)]
        rfl
      · rw [if_neg hdot, ih (iter + 1) (by omega) (by omega) h2,
          List.dropWhile_cons_of_pos (letter_or_digit_of_is_file_rest _ hp hdot)]
    · have hnl : ¬ is_letter_or_digit buf[iter] = true := by
        intro h
        have h2 := is_file_rest_of_letter_or_digit _ h
        simp only [Bool.and_eq_true] at h2
        exact hp h2.1
      have hdot : buf[iter] ≠ '.' := by
        intro h
        rw [h] at hp
        exact hp (by decide)
      rw [if_neg hp, List.dropWhile_cons_of_neg hnl]
      simp [hdot]

/-- Function `is_module` accepts exactly a head in `[a-zA-Z_]` followed by letters
and digits, not underscores, and then a dot. -/
theorem is_module_eq (lex : Lexer) (c : Char) (h1 : lex.first < lex.last)
    (h2 : lex.last ≤ lex.buf.length) (hc : lex.buf[lex.first]? = some c) :
    is_module lex = some (is_id_head c &&
      ((((lex.buf.take lex.last).drop (lex.first + 1)).dropWhile is_letter_or_digit).head?
        == some '.')) := by
  rw [is_module, hc]
  by_cases hh : is_id_head c = true
  · simp only [hh, if_true, Bool.true_and]
    exact is_module_loop_eq lex.buf lex.last _ (lex.first + 1) rfl (by omega) h2
  · simp [hh]

/-- C13 at the failing input: `is_module` rejects the path `a_b.c`, whose first
segment contains an underscore, because its scan stops at the first character
that `is_file_rest` rejects; the same path without the underscore is accepted. -/
theorem is_module_rejects_underscore_path :
    is_module (lexer_on ['a', '_', 'b', '.', 'c']) = some false ∧
    is_module (lexer_on ['a', 'b', '.', 'c']) = some true ∧
    is_module (lexer_on ['_', 'b', '.', 'c']) = some true := by
  refine ⟨?_, ?_, ?_⟩
  · rw [is_module_eq _ 'a' (by decide) (by decide) (by decide)]
    decide
  · rw [is_module_eq _ 'a' (by decide) (by decide) (by decide)]
    decide
  · rw [is_module_eq _ '_' (by decide) (by decide) (by decide)]
    decide

/-! ## Examples -/

/-- Witness for C12: on the text `if0 x` the rule `id` saves the identifier `if0`
and stops before the blank. -/
theorem id_saves_longest_run_witness :
    ((lexer_on ['i', 'f', '0', ' ', 'x']).first < (lexer_on ['i', 'f', '0', ' ', 'x']).last ∧
      (lexer_on ['i', 'f', '0', ' ', 'x']).last
        ≤ (lexer_on ['i', 'f', '0', ' ', 'x']).buf.length ∧
      (lexer_on ['i', 'f', '0', ' ', 'x']).buf[(lexer_on ['i', 'f', '0', ' ', 'x']).first]?
        = some 'i') ∧
    id (init_tokens []) (lexer_on ['i', 'f', '0', ' ', 'x'])
      = some { buf := ['i', 'f', '0', ' ', 'x'], first := 3, last := 5
               loc := { line := 1, col := 4 }
               toks := [{ loc := { line := 1, col := 1 }, kind := .identifier_tok,
                          str := "if0" }] } := by
  have h := (id_saves_longest_run (init_tokens []) (lexer_on ['i', 'f', '0', ' ', 'x']) 'i'
    (by decide) (by decide) (by decide)).1
  have hrun : run_from is_id_rest (lexer_on ['i', 'f', '0', ' ', 'x']) (0 + 1) = ['f', '0'] := by
    decide
  have e : String.mk ['i', 'f', '0'] = "if0" := rfl
  have hk : keyword (init_tokens []) "if0" = none := by decide
  rw [show (lexer_on ['i', 'f', '0', ' ', 'x']).first = 0 from rfl, hrun, e, hk] at h
  exact ⟨⟨by decide, by decide, by decide⟩, h⟩

/-- Witness for C18: on the text `42;` the rule `integer` saves the literal `42`. -/
theorem integer_saves_longest_digit_run_witness :
    ((lexer_on ['4', '2', ';']).first < (lexer_on ['4', '2', ';']).last ∧
      (lexer_on ['4', '2', ';']).last ≤ (lexer_on ['4', '2', ';']).buf.length ∧
      (lexer_on ['4', '2', ';']).buf[(lexer_on ['4', '2', ';']).first]? = some '4' ∧
      ('0' ≤ '4' ∧ '4' ≤ '9')) ∧
    integer (lexer_on ['4', '2', ';'])
      = some { buf := ['4', '2', ';'], first := 2, last := 3
               loc := { line := 1, col := 3 }
               toks := [{ loc := { line := 1, col := 1 }, kind := .decimal_literal_tok,
                          str := "42" }] } := by
  have h := (integer_saves_longest_digit_run (lexer_on ['4', '2', ';']) '4'
    (by decide) (by decide) (by decide) (by decide)).1
  have hrun : run_from is_digit (lexer_on ['4', '2', ';']) 0 = ['4', '2'] := by decide
  have e : String.mk ['4', '2'] = "42" := rfl
  rw [show (lexer_on ['4', '2', ';']).first = 0 from rfl, hrun, e] at h
  exact ⟨⟨by decide, by decide, by decide, by decide⟩, h⟩

/-- Witness for C19: on the text `//c` followed by a newline and `x`, the rule
`comment` stops at the newline, position 3, and saves nothing. -/
theorem comment_stops_at_newline_witness :
    ((lexer_on ['/', '/', 'c', '\n', 'x']).first + 2 ≤ (lexer_on ['/', '/', 'c', '\n', 'x']).last ∧
      (lexer_on ['/', '/', 'c', '\n', 'x']).last
        ≤ (lexer_on ['/', '/', 'c', '\n', 'x']).buf.length) ∧
    comment (lexer_on ['/', '/', 'c', '\n', 'x'])
      = some { buf := ['/', '/', 'c', '\n', 'x'], first := 3, last := 5
               loc := { line := 1, col := 1 }, toks := [] } ∧
    (lexer_on ['/', '/', 'c', '\n', 'x']).buf[3]? = some '\n' := by
  have h := (comment_stops_at_newline (lexer_on ['/', '/', 'c', '\n', 'x'])
    (by decide) (by decide)).1
  have hrun : run_from (fun c => c != '\n') (lexer_on ['/', '/', 'c', '\n', 'x']) (0 + 2)
      = ['c'] := by decide
  rw [show (lexer_on ['/', '/', 'c', '\n', 'x']).first = 0 from rfl, hrun] at h
  exact ⟨⟨by decide, by decide⟩, h, by decide⟩

/-- Witness for C20: the line `a.b` holds no semicolon, so it is an import line
although a semicolon follows on the next line. -/
theorem is_import_line_iff_witness :
    ((lexer_on ['a', '.', 'b', '\n', 'x', ';']).first
        ≤ (lexer_on ['a', '.', 'b', '\n', 'x', ';']).last ∧
      (lexer_on ['a', '.', 'b', '\n', 'x', ';']).last
        ≤ (lexer_on ['a', '.', 'b', '\n', 'x', ';']).buf.length) ∧
    run_from (fun c => !is_newline c) (lexer_on ['a', '.', 'b', '\n', 'x', ';']) 0
      = ['a', '.', 'b'] ∧
    is_import_line (lexer_on ['a', '.', 'b', '\n', 'x', ';']) = some true :=
  ⟨⟨by decide, by decide⟩, by decide,
    (is_import_line_iff (lexer_on ['a', '.', 'b', '\n', 'x', ';']) (by decide)
      (by decide)).1.mpr (by decide)⟩

/-- Witness for C17: on the text `"a\"b" ` the rule `string` saves the literal
through the closing quote, skipping the escaped quote inside. -/
theorem string_saves_through_closing_quote_witness :
    ((lexer_on ['"', 'a', '\\', '"', 'b', '"', ' ']).first
        < (lexer_on ['"', 'a', '\\', '"', 'b', '"', ' ']).last ∧
      (lexer_on ['"', 'a', '\\', '"', 'b', '"', ' ']).last
        ≤ (lexer_on ['"', 'a', '\\', '"', 'b', '"', ' ']).buf.length ∧
      (lexer_on ['"', 'a', '\\', '"', 'b', '"', ' ']).buf[0]? = some '"' ∧
      first_unescaped_quote ['a', '\\', '"', 'b', '"', ' '] = some 4) ∧
    string (lexer_on ['"', 'a', '\\', '"', 'b', '"', ' '])
      = some { buf := ['"', 'a', '\\', '"', 'b', '"', ' '], first := 6, last := 7
               loc := { line := 1, col := 7 }
               toks := [{ loc := { line := 1, col := 1 }, kind := .string_literal_tok,
                          str := String.mk ['"', 'a', '\\', '"', 'b', '"'] }] } :=
  ⟨⟨by decide, by decide, by decide, by decide⟩,
    (string_saves_through_closing_quote (lexer_on ['"', 'a', '\\', '"', 'b', '"', ' ']) 4
      (by decide) (by decide) (by decide) (by decide)).1⟩

/-- Witness for C15: on the code line `a.b.c.d;` the rule `module` saves the
directories `a` and `b` and the file `c`, and stops at the member `d`. -/
theorem module_on_code_line_witness :
    remaining (lexer_on ['a', '.', 'b', '.', 'c', '.', 'd', ';', '\n'])
      = List.intercalate ['.'] ([['a'], ['b']] ++ [['c'], ['d']]) ++ ';' :: ['\n'] ∧
    ';' ∈ (';' :: ['\n']).takeWhile (fun x => !is_newline x) ∧
    ∃ final, module 4 (lexer_on ['a', '.', 'b', '.', 'c', '.', 'd', ';', '\n']) = .done final ∧
      final.toks.map Token.kind_text
        = [(Token_kind.directory_tok, "a"), (Token_kind.directory_tok, "b"),
           (Token_kind.file_tok, "c")] ∧
      remaining final = ['d', ';', '\n'] ∧ final.first = 6 := by
  obtain ⟨final, hrun, htoks, hrem, hfirst, _, _⟩ :=
    module_on_code_line (lexer_on ['a', '.', 'b', '.', 'c', '.', 'd', ';', '\n'])
      [['a'], ['b']] ['c'] ['d'] ';' ['\n'] (by decide) (by decide) (by decide) (by decide)
      (by decide) (by decide) 4 (by decide)
  refine ⟨by decide, by decide, final, hrun, htoks, hrem, ?_⟩
  have hlen : (List.intercalate ['.'] ([['a'], ['b']] ++ [['c'], ['d']])).length = 7 := by
    decide
  rw [hlen] at hfirst
  have h0 : (lexer_on ['a', '.', 'b', '.', 'c', '.', 'd', ';', '\n']).first = 0 := rfl
  rw [h0] at hfirst
  simp only [List.length_singleton] at hfirst
  omega

/-- Examples for `module_on_import_line`: on the import line `a.b` the rule
`module` saves the directory `a` and the file `b` and stops at the newline; and
likewise when the path ends the input and the buffer holds a terminator at
`last`. -/
theorem module_on_import_line_witness :
    (remaining (lexer_on ['a', '.', 'b', '\n']) = ['a'] ++ '.' :: ['b'] ++ ['\n'] ∧
      ';' ∉ (remaining (lexer_on ['a', '.', 'b', '\n'])).takeWhile (fun x => !is_newline x) ∧
      module 2 (lexer_on ['a', '.', 'b', '\n'])
        = .done { buf := ['a', '.', 'b', '\n'], first := 3, last := 4
                  loc := { line := 1, col := 4 }
                  toks := [{ loc := { line := 1, col := 1 }, kind := .directory_tok, str := "a" },
                           { loc := { line := 1, col := 3 }, kind := .file_tok, str := "b" }] }) ∧
    (remaining sample_terminated_lexer = ['a'] ++ '.' :: ['b'] ++ [] ∧
      sample_terminated_lexer.buf[sample_terminated_lexer.last]? = some '\x00' ∧
      module 2 sample_terminated_lexer
        = .done { buf := ['a', '.', 'b', '\x00'], first := 3, last := 3
                  loc := { line := 1, col := 4 }
                  toks := [{ loc := { line := 1, col := 1 }, kind := .directory_tok, str := "a" },
                           { loc := { line := 1, col := 3 }, kind := .file_tok, str := "b" }] }) :=
  ⟨⟨by decide, by decide,
      module_on_import_line (lexer_on ['a', '.', 'b', '\n']) ['a'] ['b'] '\n' ['\n']
        (by decide) (by decide) (by decide) (by decide) (by decide) (by decide) (by decide)
        (by decide) 2 (by decide)⟩,
    ⟨by decide, by decide,
      module_on_import_line sample_terminated_lexer ['a'] ['b'] '\x00' []
        (by decide) (by decide) (by decide) (by decide) (by decide) (by decide) (by decide)
        (by decide) 2 (by decide)⟩⟩

/-! ## Termination of `module` -/

/-- On an import line, at the start of a path with two or more dots, one pass
through the body of the loop of `module` builds no token and leaves the lexer
as it is, with the loop test reading the first dot: neither `dots == 1` nor
`dots == 0` holds, so the loop repeats without end and no amount of fuel
suffices. -/
theorem module_import_line_loops (lex : Lexer) (s : List Char) (more : List (List Char))
    (tail : List Char)
    (h1 : lex.first ≤ lex.last) (h2 : lex.last ≤ lex.buf.length)
    (hrem : remaining lex = s ++ dotted more ++ tail)
    (hs0 : s ≠ []) (hs : ∀ c ∈ s, is_letter_or_digit c = true)
    (hmore : ∀ t ∈ more, ∀ c ∈ t, is_letter_or_digit c = true)
    (htail : ∀ c ∈ tail.head?, is_file_rest c = false)
    (himport : ';' ∉ tail.takeWhile (fun x => !is_newline x))
    (hdots : 2 ≤ more.length) :
    module_body lex = some (lex, lex.first + s.length) ∧
    lex.buf[lex.first + s.length]? = some '.' ∧
    ∀ fuel, module fuel lex = .out_of_fuel := by
  have hbody : module_body lex = module_rest lex :=
    module_body_at_segment lex s (dotted more ++ tail) hs0 hs
      (by rw [hrem, List.append_assoc])
  have himp : is_import_line lex = some true := by
    rw [is_import_line_on_path lex s more tail h1 h2 hrem hs hmore]
    simp [himport]
  have hrest := module_rest_eq lex s more tail true h1 h2 hrem hs hmore htail himp
  have hpass : module_rest lex = some (lex, lex.first + s.length) := by
    rw [hrest]
    have hne1 : more.length ≠ 1 := by omega
    have hne0 : more.length ≠ 0 := by omega
    simp [hne1, hne0]
  have hread : lex.buf[lex.first + s.length]? = some '.' := by
    apply getElem?_of_remaining
    obtain ⟨t, more1, rfl⟩ : ∃ t more1, more = t :: more1 := by
      cases more with
      | nil => simp at hdots
      | cons t more1 => exact ⟨t, more1, rfl⟩
    rw [hrem, dotted, List.append_assoc, List.cons_append]
    exact getElem?_append_length s '.' _
  refine ⟨by rw [hbody, hpass], hread, ?_⟩
  intro fuel
  induction fuel with
  | zero => rfl
  | succ fuel ih =>
    rw [module, hbody, hpass]
    simp only [hread, if_true]
    exact ih

/-- C21 at the failing input: on the import line `a.b.c` (no `;` on the line),
`is_module` returns true, yet `module` does not terminate. The line is an import
line and three dots-separated segments leave `dots == 2`, so the body of the
do-while loop saves no token and does not advance, the loop test reads the dot
after `a`, and the loop runs again from the same state: whatever the bound on
the number of passes, the loop has not ended. -/
theorem module_loops_on_import_path_with_two_dots :
    is_module (lexer_on ['a', '.', 'b', '.', 'c', '\n']) = some true ∧
    is_import_line (lexer_on ['a', '.', 'b', '.', 'c', '\n']) = some true ∧
    remaining_dots (lexer_on ['a', '.', 'b', '.', 'c', '\n']) = some 2 ∧
    module_body (lexer_on ['a', '.', 'b', '.', 'c', '\n'])
      = some (lexer_on ['a', '.', 'b', '.', 'c', '\n'], 1) ∧
    (lexer_on ['a', '.', 'b', '.', 'c', '\n']).buf[1]? = some '.' ∧
    (∀ fuel, module fuel (lexer_on ['a', '.', 'b', '.', 'c', '\n']) = .out_of_fuel) := by
  have hrem : remaining (lexer_on ['a', '.', 'b', '.', 'c', '\n'])
      = ['a'] ++ dotted [['b'], ['c']] ++ ['\n'] := by decide
  have hloop := module_import_line_loops (lexer_on ['a', '.', 'b', '.', 'c', '\n']) ['a']
    [['b'], ['c']] ['\n'] (by decide) (by decide) hrem (by decide) (by decide) (by decide)
    (by decide) (by decide) (by decide)
  refine ⟨?_, ?_, ?_, hloop.1, by decide, hloop.2.2⟩
  · rw [is_module_eq _ 'a' (by decide) (by decide) (by decide)]
    decide
  · rw [is_import_line_on_path _ ['a'] [['b'], ['c']] ['\n'] (by decide) (by decide) hrem
      (by decide) (by decide)]
    decide
  · unfold remaining_dots
    rw [remaining_dots_loop_eq _ _ _ 0 _ rfl (by decide) (by decide)]
    decide

/-! ## Keyword lookup over the keyword bindings alone -/

/-- With keyword lookup over the sixteen keyword and type-name bindings alone,
the first sixteen that `init_tokens` registers, the lexeme `file` is not found
and `id` saves an identifier token for it: what `id` saves for `file` depends on
which bindings the lookup consults. -/
theorem id_saves_identifier_for_file_over_keyword_bindings :
    ((init_tokens []).take 16).map Prod.snd = spec_keywords ++ spec_type_names ∧
    keyword ((init_tokens []).take 16) "file" = none ∧
    id ((init_tokens []).take 16) (lexer_on ['f', 'i', 'l', 'e', ';'])
      = some { buf := ['f', 'i', 'l', 'e', ';'], first := 4, last := 5
               loc := { line := 1, col := 5 }
               toks := [{ loc := { line := 1, col := 1 }, kind := .identifier_tok,
                          str := "file" }] } := by
  have hk : keyword ((init_tokens []).take 16) "file" = none := by decide
  have hrun : run_from is_id_rest (lexer_on ['f', 'i', 'l', 'e', ';']) (0 + 1)
      = ['i', 'l', 'e'] := by decide
  have h := id_eq ((init_tokens []).take 16) (lexer_on ['f', 'i', 'l', 'e', ';']) 'f'
    (by decide) (by decide) (by decide)
  have e : String.mk ['f', 'i', 'l', 'e'] = "file" := rfl
  rw [show (lexer_on ['f', 'i', 'l', 'e', ';']).first = 0 from rfl, hrun, e, hk] at h
  exact ⟨by decide, hk, h⟩

/-! ## Import paths at the end of the input -/

/-- C16 at the failing input: on the import line `a.b` that ends the input, with
nothing in the buffer behind it, `module` builds the directory token `a` and the
file token `b` in two passes, and then its loop test `*iter == '.'` reads at
`iter == lex.last`, outside the input, which nothing guards against (every
other loop of the lexer tests `iter != lex.last` before it reads): the outcome
is undefined instead of the two tokens. -/
theorem module_reads_past_end_of_import_path :
    is_module (lexer_on ['a', '.', 'b']) = some true ∧
    is_import_line (lexer_on ['a', '.', 'b']) = some true ∧
    module_body (lexer_on ['a', '.', 'b']) = some (sample_import_pass1, 1) ∧
    sample_import_pass1.buf[1]? = some '.' ∧
    module_body sample_import_pass1 = some (sample_import_pass2, 3) ∧
    sample_import_pass2.last = 3 ∧
    sample_import_pass2.buf[3]? = none ∧
    (∀ fuel, module (fuel + 2) (lexer_on ['a', '.', 'b']) = .undefined) := by
  -- first pass: the directory
  have hrem : remaining (lexer_on ['a', '.', 'b']) = ['a'] ++ dotted [['b']] ++ [] := by
    decide
  have himp : is_import_line (lexer_on ['a', '.', 'b']) = some true := by
    rw [is_import_line_on_path _ ['a'] [['b']] [] (by decide) (by decide) hrem (by decide)
      (by decide)]
    decide
  have hbody : module_body (lexer_on ['a', '.', 'b']) = module_rest (lexer_on ['a', '.', 'b']) :=
    module_body_at_segment _ ['a'] ['.', 'b'] (by decide) (by decide) (by decide)
  have hrest := module_rest_eq (lexer_on ['a', '.', 'b']) ['a'] [['b']] [] true (by decide)
    (by decide) hrem (by decide) (by decide) (by decide) himp
  have hpass1 : module_body (lexer_on ['a', '.', 'b']) = some (sample_import_pass1, 1) := by
    rw [hbody, hrest]
    decide
  -- second pass: the file
  have hrem1 : remaining (advance sample_import_pass1 1) = ['b'] ++ dotted [] ++ [] := by
    decide
  have himp1 : is_import_line (advance sample_import_pass1 1) = some true := by
    rw [is_import_line_on_path _ ['b'] [] [] (by decide) (by decide) hrem1 (by decide)
      (by decide)]
    decide
  have hrest1 := module_rest_eq (advance sample_import_pass1 1) ['b'] [] [] true (by decide)
    (by decide) hrem1 (by decide) (by decide) (by decide) himp1
  have hread1 : sample_import_pass1.buf[sample_import_pass1.first]? = some '.' := by decide
  have hpass2 : module_body sample_import_pass1 = some (sample_import_pass2, 3) := by
    rw [module_body, hread1]
    simp only [if_true]
    rw [hrest1]
    decide
  have hread2 : sample_import_pass1.buf[1]? = some '.' := by decide
  have hread3 : sample_import_pass2.buf[3]? = none := by decide
  refine ⟨?_, himp, hpass1, hread2, hpass2, rfl, hread3, ?_⟩
  · rw [is_module_eq _ 'a' (by decide) (by decide) (by decide)]
    decide
  · intro fuel
    rw [module, hpass1]
    simp only [hread2, if_true]
    rw [module, hpass2]
    simp only [hread3]

end lex

end Waffle
